import Mathlib

/-!
Shallow embedding of the core of the perpetual-contract monitoring dashboard
(exchange adapters, market-data resolver, aggregation and route handlers),
together with proofs settling the specification claims.

Conventions of the embedding:
* JavaScript numbers are modelled as rationals (`ℚ`); epoch-millisecond
  timestamps as `Int` or `Nat`.
* A JavaScript `Map` is modelled as an association list with `aset`
  (update-in-place when the key exists, append otherwise — the insertion-order
  semantics of `Map.set`) and `aget` (`Map.get`).
* Network calls are modelled by environment records; a per-call `Option`
  result models success/failure of an individual request.  Stateful module
  caches are threaded explicitly through an `MDState` record, and each
  function additionally returns the number of outbound network requests it
  issued.  Batching loops that only insert delays between requests (back
  pressure) are collapsed; they do not change results or request counts.
-/

/-- `Map.get` on an association list. -/
def aget {β : Type} : List (String × β) → String → Option β
  | [], _ => none
  | (a, b) :: m, k => if a = k then some b else aget m k

/-- `Map.set` on an association list: update in place when the key exists,
append otherwise (JavaScript `Map` keeps the original insertion position). -/
def aset {β : Type} : List (String × β) → String → β → List (String × β)
  | [], k, v => [(k, v)]
  | (a, b) :: m, k, v => if a = k then (k, v) :: m else (a, b) :: aset m k v

theorem aget_aset {β : Type} (m : List (String × β)) (k k' : String) (v : β) :
    aget (aset m k v) k' = if k = k' then some v else aget m k' := by
  induction m with
  | nil => by_cases h : k = k' <;> simp [aset, aget, h]
  | cons p m ih =>
    obtain ⟨a, b⟩ := p
    by_cases hak : a = k
    · by_cases hk : k = k' <;> simp [aset, aget, hak, hk]
    · simp only [aset, if_neg hak, aget]
      by_cases hak' : a = k'
      · have : ¬ k = k' := fun h => hak (h ▸ hak')
        simp [aget, hak', this]
      · simp [aget, hak', ih]

theorem aget_mem_values {β : Type} (m : List (String × β)) (k : String) (v : β)
    (h : aget m k = some v) : v ∈ m.map (·.2) := by
  induction m with
  | nil => simp [aget] at h
  | cons p m ih =>
    obtain ⟨a, b⟩ := p
    simp only [aget] at h
    by_cases hak : a = k
    · simp [hak] at h; simp [h]
    · simp only [if_neg hak] at h
      simp [ih h]

theorem mem_values_aset {β : Type} (m : List (String × β)) (k : String) (x v : β)
    (h : v ∈ (aset m k x).map (·.2)) : v = x ∨ v ∈ m.map (·.2) := by
  induction m with
  | nil => simp [aset] at h; simp [h]
  | cons p m ih =>
    obtain ⟨a, b⟩ := p
    by_cases hak : a = k
    · simp [aset, hak] at h
      rcases h with h | h
      · exact Or.inl h
      · exact Or.inr (by simp [h])
    · simp only [aset, if_neg hak, List.map_cons, List.mem_cons] at h
      rcases h with h | h
      · exact Or.inr (by simp [h])
      · rcases ih h with h' | h'
        · exact Or.inl h'
        · exact Or.inr (by simp [h'])

/-- A fold that `aset`s a key-determined optional value for every visited
key (shared shape of the resolution-map build and similar loops). -/
def setOptFold {β : Type} (g : String → Option β) (l : List String)
    (m0 : List (String × β)) : List (String × β) :=
  l.foldl (fun m b => match g b with
    | some v => aset m b v
    | none => m) m0

/-- Lookup in an association list built by `setOptFold`. -/
theorem aget_foldl_setOpt {β : Type} (g : String → Option β) :
    ∀ (l : List String) (m0 : List (String × β)) (k : String),
      aget (setOptFold g l m0) k =
      if k ∈ l ∧ (g k).isSome then g k else aget m0 k := by
  intro l
  unfold setOptFold
  induction l with
  | nil => intro m0 k; simp
  | cons b bs ih =>
    intro m0 k
    simp only [List.foldl_cons]
    rcases hg : g b with _ | v
    · rw [ih]
      by_cases hk : k ∈ bs ∧ (g k).isSome
      · simp [hk, List.mem_cons, hk.1, hk.2]
      · simp only [if_neg hk]
        by_cases hkb : k = b
        · subst hkb
          simp [List.mem_cons, hg]
        · have hnone : ¬ ((k = b ∨ k ∈ bs) ∧ (g k).isSome) := by
            intro ⟨h1, h2⟩
            rcases h1 with h | h
            · exact hkb h
            · exact hk ⟨h, h2⟩
          simp [List.mem_cons, hnone]
    · rw [ih]
      by_cases hk : k ∈ bs ∧ (g k).isSome
      · simp [hk, List.mem_cons, hk.1, hk.2]
      · simp only [if_neg hk]
        rw [aget_aset]
        by_cases hkb : b = k
        · subst hkb
          simp [hg]
        · have hnone : ¬ ((k = b ∨ k ∈ bs) ∧ (g k).isSome) := by
            intro ⟨h1, h2⟩
            rcases h1 with h | h
            · exact hkb h.symm
            · exact hk ⟨h, h2⟩
          simp [List.mem_cons, hkb, hnone]

/-- Lookup in an association list built by a fold that `aset`s a
key-determined (total) value for every visited key. -/
theorem aget_foldl_set {β : Type} (f : String → β) (l : List String)
    (m0 : List (String × β)) (k : String) :
    aget (l.foldl (fun m s => aset m s (f s)) m0) k =
      if k ∈ l then some (f k) else aget m0 k := by
  have h := aget_foldl_setOpt (fun s => some (f s)) l m0 k
  simpa [setOptFold] using h

/-- Lookup in `l.map (fun s => (s, g s))`. -/
theorem aget_map_pair (g : String → β) (l : List String) (k : String) :
    aget (l.map (fun s => (s, g s))) k = if k ∈ l then some (g k) else none := by
  induction l with
  | nil => simp [aget]
  | cons s l ih =>
    simp only [List.map_cons, aget]
    by_cases hk : s = k
    · subst hk; simp
    · have : ¬ k = s := fun h => hk h.symm
      simp [hk, this, ih]

/-- JavaScript `a || b` on numbers (`0` is falsy; `NaN` does not arise in the
rational model). -/
def jsOrQ (a b : ℚ) : ℚ := if a = 0 then b else a

/-- JavaScript `x || null` on a nullable number (`0` becomes `null`). -/
def jsOrNull (o : Option ℚ) : Option ℚ :=
  match o with
  | some v => if v = 0 then none else some v
  | none => none

/-- JavaScript `Math.round` (round half towards `+∞`) as a rational. -/
def jsRoundQ (q : ℚ) : ℚ := ((⌊q + 1 / 2⌋ : ℤ) : ℚ)

/-! JavaScript string primitives, modelled on the character list underlying
`String` so that they evaluate inside the kernel. -/

/-- `s.endsWith(suffix)`. -/
def strEndsWith (s suffix : String) : Bool := suffix.data.isSuffixOf s.data

/-- `s.slice(0, -n)` (drop the last `n` characters). -/
def strDropRight (s : String) (n : Nat) : String := ⟨s.data.take (s.data.length - n)⟩

/-- `s.toUpperCase()`. -/
def strToUpper (s : String) : String := ⟨s.data.map Char.toUpper⟩

/-- `s.trim()`. -/
def strTrim (s : String) : String :=
  ⟨((s.data.dropWhile Char.isWhitespace).reverse.dropWhile Char.isWhitespace).reverse⟩

def splitOnCharAux (sep : Char) : List Char → List Char → List String
  | [], cur => [⟨cur.reverse⟩]
  | c :: cs, cur =>
    if c = sep then ⟨cur.reverse⟩ :: splitOnCharAux sep cs []
    else splitOnCharAux sep cs (c :: cur)

/-- `s.split(sep)` for a one-character separator (`''.split(sep) = ['']`). -/
def splitOnChar (sep : Char) (s : String) : List String :=
  splitOnCharAux sep s.data []

/-- `[...new Set(xs)]`: deduplicate keeping the first occurrence of each
element, preserving order. -/
def dedupFirstAux : List String → List String → List String
  | _, [] => []
  | seen, x :: xs =>
    if x ∈ seen then dedupFirstAux seen xs
    else x :: dedupFirstAux (x :: seen) xs

def dedupFirst (l : List String) : List String := dedupFirstAux [] l

/-! ## `src/lib/marketData.ts` — the Market-Data Resolver -/

/-- A CoinGecko `/coins/list` entry. -/
structure CGCoin where
  id : String
  symbol : String
  name : String
deriving DecidableEq

/-- A CoinGecko `/coins/markets` row (the fields the resolver reads). -/
structure CGMarketRow where
  id : String
  market_cap : Option ℚ
  fully_diluted_valuation : Option ℚ
  name : String
  image : String
deriving DecidableEq

/-- `MarketData` of `src/lib/marketData.ts`. -/
structure MarketData where
  marketCap : Option ℚ
  fdv : Option ℚ
  name : Option String := none
  image : Option String := none
deriving DecidableEq

def nullMarketData : MarketData := { marketCap := none, fdv := none }

/-- The CoinGecko side of the world, fixed for the duration of the runs under
consideration: whether `/coins/list` succeeds and what it returns, and whether
`/coins/markets` succeeds and which row it holds for each coin id. -/
structure CGEnv where
  coinsOk : Bool
  coinsList : List CGCoin
  marketsOk : Bool
  markets : String → Option CGMarketRow

/-- The module-level mutable caches of `src/lib/marketData.ts`. -/
structure MDState where
  symbolToIdCache : List (String × String)
  coinsListCache : Option (List CGCoin)
  coinsListCacheTime : Nat
  marketDataCache : List (String × (MarketData × Nat))

def initMDState : MDState := ⟨[], none, 0, []⟩

def COINS_LIST_CACHE_TTL : Nat := 3600000
def CACHE_TTL : Nat := 60000

/-- `SYMBOL_TO_COINGECKO_ID` (the static base-symbol → CoinGecko-id table). -/
def symbolToCoinGeckoId : List (String × String) :=
  [("BTC", "bitcoin"), ("ETH", "ethereum"), ("BNB", "binancecoin"),
   ("SOL", "solana"), ("XRP", "ripple"), ("ADA", "cardano"),
   ("DOGE", "dogecoin"), ("TRX", "tron"), ("DOT", "polkadot"),
   ("MATIC", "matic-network"), ("AVAX", "avalanche-2"), ("LINK", "chainlink"),
   ("UNI", "uniswap"), ("ATOM", "cosmos"), ("ETC", "ethereum-classic"),
   ("LTC", "litecoin"), ("NEAR", "near"), ("APT", "aptos"),
   ("ARB", "arbitrum"), ("OP", "optimism"), ("SUI", "sui"),
   ("INJ", "injective-protocol"), ("TIA", "celestia"), ("SEI", "sei-network"),
   ("WLD", "worldcoin-wld"), ("PEPE", "pepe"), ("SHIB", "shiba-inu"),
   ("FLOKI", "floki")]

/-- `getCoinsList`: returns the `/coins/list` payload, caching it for
`COINS_LIST_CACHE_TTL`; on a failed request it falls back to a stale cache or
`[]`.  The third component counts outbound network requests. -/
def getCoinsList (env : CGEnv) (now : Nat) (st : MDState) :
    List CGCoin × MDState × Nat :=
  match st.coinsListCache with
  | some cached =>
    if now - st.coinsListCacheTime < COINS_LIST_CACHE_TTL then (cached, st, 0)
    else if env.coinsOk then
      (env.coinsList,
       { st with coinsListCache := some env.coinsList, coinsListCacheTime := now }, 1)
    else (cached, st, 1)
  | none =>
    if env.coinsOk then
      (env.coinsList,
       { st with coinsListCache := some env.coinsList, coinsListCacheTime := now }, 1)
    else ([], st, 1)

/-- `findCoinGeckoIdBySymbol`: exact case-insensitive ticker match against the
coins list, with positive results cached in `symbolToIdCache`. -/
def findCoinGeckoIdBySymbol (env : CGEnv) (now : Nat) (st : MDState)
    (symbol : String) : Option String × MDState × Nat :=
  match aget st.symbolToIdCache symbol with
  | some id => (some id, st, 0)
  | none =>
    let r := getCoinsList env now st
    match r.1.find? (fun coin => strToUpper coin.symbol == strToUpper symbol) with
    | some coin =>
      (some coin.id,
       { r.2.1 with symbolToIdCache := aset r.2.1.symbolToIdCache symbol coin.id },
       r.2.2)
    | none => (none, r.2.1, r.2.2)

/-- The quote-currency suffixes stripped by `extractBaseSymbol`. -/
def quoteSuffixes : List String := ["USDT", "USD", "BUSD", "USDC", "EUR", "GBP"]

/-- `extractBaseSymbol`: strip the first matching quote-currency suffix. -/
def extractBaseSymbol (symbol : String) : String :=
  match quoteSuffixes.find? (fun suffix => strEndsWith symbol suffix) with
  | some suffix => strDropRight symbol suffix.data.length
  | none => symbol

/-- The `MarketData` extracted from one `/coins/markets` row
(`data.market_cap || null`, `data.fully_diluted_valuation || null`). -/
def marketRowToData (row : CGMarketRow) : MarketData :=
  { marketCap := jsOrNull row.market_cap,
    fdv := jsOrNull row.fully_diluted_valuation,
    name := some row.name,
    image := some row.image }

/-- The `MarketData` that a (successful) `/coins/markets` request yields for a
given coin id: the row's data when the provider lists the id, `null`s
otherwise. -/
def fetchedData (env : CGEnv) (coinId : String) : MarketData :=
  match env.markets coinId with
  | some row => marketRowToData row
  | none => nullMarketData

/-- `getBatchMarketData`: one `/coins/markets` request for a batch of ids.
Every requested id receives an entry on success; a failed request yields an
empty map. -/
def getBatchMarketData (env : CGEnv) (coinIds : List String) :
    List (String × MarketData) × Nat :=
  if coinIds = [] then ([], 0)
  else if env.marketsOk then
    (coinIds.map (fun coinId => (coinId, fetchedData env coinId)), 1)
  else ([], 1)

/-- The cache-partitioning loop of `getBatchMarketDataForSymbols`: fresh cache
hits go into the result map, the rest into `uncachedIds`. -/
def partitionCachedAux (now : Nat) (mdCache : List (String × (MarketData × Nat))) :
    List (String × MarketData) → List String → List String →
    List (String × MarketData) × List String
  | rm, un, [] => (rm, un)
  | rm, un, id :: ids =>
    match aget mdCache id with
    | some (d, ts) =>
      if now - ts < CACHE_TTL then partitionCachedAux now mdCache (aset rm id d) un ids
      else partitionCachedAux now mdCache rm (un ++ [id]) ids
    | none => partitionCachedAux now mdCache rm (un ++ [id]) ids

/-- Split a list into the source's batches of at most 250 ids. -/
def batches250 : List String → List (List String)
  | [] => []
  | x :: xs => ((x :: xs).take 250) :: batches250 ((x :: xs).drop 250)
termination_by l => l.length
decreasing_by
  simp only [List.length_drop, List.length_cons]
  omega

/-- The fetch loop of `getBatchMarketDataForSymbols`: one
`getBatchMarketData` request per batch, writing every returned entry into both
the result map and `marketDataCache` (timestamped `now`). -/
def fetchBatches (env : CGEnv) (now : Nat) :
    List (List String) → List (String × MarketData) →
    List (String × (MarketData × Nat)) →
    List (String × MarketData) × (List (String × (MarketData × Nat)) × Nat)
  | [], rm, mc => (rm, mc, 0)
  | batch :: rest, rm, mc =>
    let bd := getBatchMarketData env batch
    let rm1 := bd.1.foldl (fun m p => aset m p.1 p.2) rm
    let mc1 := bd.1.foldl (fun m p => aset m p.1 (p.2, now)) mc
    let r := fetchBatches env now rest rm1 mc1
    (r.1, r.2.1, bd.2 + r.2.2)

/-- The symbol-resolution loop of `getBatchMarketDataForSymbols`: static table
first, then `findCoinGeckoIdBySymbol`; resolved pairs are `Map.set` into the
accumulator. -/
def resolveBaseSymbols (env : CGEnv) (now : Nat) :
    List String → MDState → List (String × String) →
    List (String × String) × MDState × Nat
  | [], st, acc => (acc, st, 0)
  | b :: bs, st, acc =>
    match aget symbolToCoinGeckoId b with
    | some id => resolveBaseSymbols env now bs st (aset acc b id)
    | none =>
      let f := findCoinGeckoIdBySymbol env now st b
      let acc1 := match f.1 with
        | some id => aset acc b id
        | none => acc
      let rest := resolveBaseSymbols env now bs f.2.1 acc1
      (rest.1, rest.2.1, f.2.2 + rest.2.2)

/-- The remainder of `getBatchMarketDataForSymbols` after the resolution
loop: early-return when nothing resolved, read the market-data cache,
batch-fetch the misses, then map results back onto every input symbol
(unresolved or unfetched symbols get `null` market data). -/
def getBatchAfterResolve (env : CGEnv) (now : Nat) (symbols : List String)
    (symbolToCoinIdMap : List (String × String)) (st1 : MDState) (n1 : Nat) :
    List (String × MarketData) × MDState × Nat :=
  let coinIds := symbolToCoinIdMap.map (·.2)
  if coinIds = [] then ([], st1, n1)
  else
    let pc := partitionCachedAux now st1.marketDataCache [] [] coinIds
    let fb := fetchBatches env now (batches250 pc.2) pc.1 st1.marketDataCache
    let st2 := { st1 with marketDataCache := fb.2.1 }
    let symbolMap := symbols.map (fun symbol =>
      match aget symbolToCoinIdMap (extractBaseSymbol symbol) with
      | some coinId =>
        match aget fb.1 coinId with
        | some d => (symbol, d)
        | none => (symbol, nullMarketData)
      | none => (symbol, nullMarketData))
    (symbolMap, st2, n1 + fb.2.2)

/-- `getBatchMarketDataForSymbols`: resolve base symbols to coin ids
(`resolveBaseSymbols`), then fetch and map back (`getBatchAfterResolve`).
When no symbol resolves at all the function returns the empty map early. -/
def getBatchMarketDataForSymbols (env : CGEnv) (now : Nat) (st : MDState)
    (symbols : List String) : List (String × MarketData) × MDState × Nat :=
  let baseSymbols := dedupFirst (symbols.map extractBaseSymbol)
  let res := resolveBaseSymbols env now baseSymbols st []
  getBatchAfterResolve env now symbols res.1 res.2.1 res.2.2

/-! ### Canonical description of a resolver call

The environment is deterministic within the time window under study, so the
result of symbol resolution and of a (successful) market-data fetch can be
described by cache-free functions; the lemmas below show each phase of
`getBatchMarketDataForSymbols` computes these functions. -/

/-- The result of an exact case-insensitive search of the coins list. -/
def canonSearch (env : CGEnv) (b : String) : Option String :=
  (env.coinsList.find? (fun coin => strToUpper coin.symbol == strToUpper b)).map (·.id)

/-- Resolution of one base symbol: static table first, then search. -/
def canonResolve (env : CGEnv) (b : String) : Option String :=
  match aget symbolToCoinGeckoId b with
  | some id => some id
  | none => canonSearch env b

/-- The symbol → coin-id map the resolution loop builds. -/
def canonMapFold (env : CGEnv) (bases : List String)
    (acc : List (String × String)) : List (String × String) :=
  setOptFold (canonResolve env) bases acc

def baseSymbolsOf (symbols : List String) : List String :=
  dedupFirst (symbols.map extractBaseSymbol)

def canonMap (env : CGEnv) (symbols : List String) : List (String × String) :=
  canonMapFold env (baseSymbolsOf symbols) []

def canonIds (env : CGEnv) (symbols : List String) : List String :=
  (canonMap env symbols).map (·.2)

/-- The entry the final mapping loop produces for one input symbol. -/
def canonEntry (env : CGEnv) (symbols : List String) (s : String) :
    String × MarketData :=
  match aget (canonMap env symbols) (extractBaseSymbol s) with
  | some id => (s, fetchedData env id)
  | none => (s, nullMarketData)

/-- The value a first (cold-cache) resolver call returns when its network
requests succeed. -/
def canonResult (env : CGEnv) (symbols : List String) :
    List (String × MarketData) :=
  if canonIds env symbols = [] then [] else symbols.map (canonEntry env symbols)

theorem aget_canonMapFold (env : CGEnv) (bases : List String)
    (acc : List (String × String)) (k : String) :
    aget (canonMapFold env bases acc) k =
      if k ∈ bases ∧ (canonResolve env k).isSome then canonResolve env k
      else aget acc k := by
  unfold canonMapFold
  exact aget_foldl_setOpt (canonResolve env) bases acc k

/-- Every `symbolToIdCache` entry agrees with a fresh search. -/
def SoundSymCache (env : CGEnv) (st : MDState) : Prop :=
  ∀ b id, aget st.symbolToIdCache b = some id → canonSearch env b = some id

/-- State invariant maintained during a first call at time `t₀`. -/
def CallOneInv (env : CGEnv) (t₀ : Nat) (st : MDState) : Prop :=
  SoundSymCache env st ∧
  (st.coinsListCache = none ∨
    (st.coinsListCache = some env.coinsList ∧ st.coinsListCacheTime = t₀))

theorem getCoinsList_warm (env : CGEnv) (now : Nat) (st : MDState)
    (h : st.coinsListCache = some env.coinsList)
    (ht : now - st.coinsListCacheTime < COINS_LIST_CACHE_TTL) :
    getCoinsList env now st = (env.coinsList, st, 0) := by
  simp [getCoinsList, h, ht]

theorem getCoinsList_cold (env : CGEnv) (now : Nat) (st : MDState)
    (h : st.coinsListCache = none) (hc : env.coinsOk = true) :
    getCoinsList env now st =
      (env.coinsList,
       { st with coinsListCache := some env.coinsList,
                 coinsListCacheTime := now }, 1) := by
  simp [getCoinsList, h, hc]

theorem aget_nil {β : Type} (k : String) : aget ([] : List (String × β)) k = none := rfl

/-- A first-call invocation of `findCoinGeckoIdBySymbol` (at time `t₀`, with
the coins list either not yet cached or cached earlier in the same call):
it returns the canonical search result, preserves the call-one invariant,
touches neither the market-data cache nor existing symbol-cache entries, and
leaves behind either a symbol-cache hit for `b` or a freshly cached coins
list. -/
theorem findCoinGeckoIdBySymbol_first (env : CGEnv) (t₀ : Nat) (st : MDState)
    (b : String) (hc : env.coinsOk = true) (hinv : CallOneInv env t₀ st) :
    (findCoinGeckoIdBySymbol env t₀ st b).1 = canonSearch env b ∧
    CallOneInv env t₀ (findCoinGeckoIdBySymbol env t₀ st b).2.1 ∧
    (findCoinGeckoIdBySymbol env t₀ st b).2.1.marketDataCache = st.marketDataCache ∧
    (∀ b' id, aget st.symbolToIdCache b' = some id →
      aget (findCoinGeckoIdBySymbol env t₀ st b).2.1.symbolToIdCache b' = some id) ∧
    ((st.coinsListCache = some env.coinsList ∧ st.coinsListCacheTime = t₀) →
      (findCoinGeckoIdBySymbol env t₀ st b).2.1.coinsListCache = some env.coinsList ∧
      (findCoinGeckoIdBySymbol env t₀ st b).2.1.coinsListCacheTime = t₀) ∧
    ((aget (findCoinGeckoIdBySymbol env t₀ st b).2.1.symbolToIdCache b).isSome ∨
      ((findCoinGeckoIdBySymbol env t₀ st b).2.1.coinsListCache = some env.coinsList ∧
       (findCoinGeckoIdBySymbol env t₀ st b).2.1.coinsListCacheTime = t₀)) := by
  obtain ⟨hsound, hcc⟩ := hinv
  unfold findCoinGeckoIdBySymbol
  rcases hb : aget st.symbolToIdCache b with _ | id
  · have hlist : getCoinsList env t₀ st =
        (env.coinsList,
         { st with coinsListCache := some env.coinsList,
                   coinsListCacheTime := t₀ }, 1) ∨
        (getCoinsList env t₀ st = (env.coinsList, st, 0) ∧
          st.coinsListCache = some env.coinsList ∧ st.coinsListCacheTime = t₀) := by
      rcases hcc with hnone | ⟨hsome, htime⟩
      · exact Or.inl (getCoinsList_cold env t₀ st hnone hc)
      · refine Or.inr ⟨?_, hsome, htime⟩
        exact getCoinsList_warm env t₀ st hsome (by simp [htime, COINS_LIST_CACHE_TTL])
    rcases hlist with hlist | ⟨hlist, hsome, htime⟩ <;>
      simp only [hb, hlist] <;>
      rcases hfind : env.coinsList.find? (fun coin => strToUpper coin.symbol == strToUpper b)
        with _ | coin <;>
      simp only [hfind]
    · exact ⟨by simp [canonSearch, hfind], ⟨hsound, by simp⟩, by simp,
        fun b' id h => h, by simp, by simp⟩
    · have hcanon : canonSearch env b = some coin.id := by simp [canonSearch, hfind]
      refine ⟨hcanon.symm, ⟨?_, by simp⟩, by simp, ?_, by simp, by simp⟩
      · intro b' id h
        rw [aget_aset] at h
        by_cases hbb : b = b'
        · subst hbb
          simp at h
          exact h ▸ hcanon
        · rw [if_neg hbb] at h
          exact hsound b' id h
      · intro b' id h
        rw [aget_aset]
        by_cases hbb : b = b'
        · subst hbb
          rw [hb] at h
          exact absurd h (by simp)
        · rw [if_neg hbb]
          exact h
    · exact ⟨by simp [canonSearch, hfind], ⟨hsound, by simp [hsome, htime]⟩, by simp,
        fun b' id h => h, by simp [hsome, htime], by simp [hsome, htime]⟩
    · have hcanon : canonSearch env b = some coin.id := by simp [canonSearch, hfind]
      refine ⟨hcanon.symm, ⟨?_, by simp [hsome, htime]⟩, by simp, ?_,
        by simp [hsome, htime], by simp [hsome, htime]⟩
      · intro b' id h
        rw [aget_aset] at h
        by_cases hbb : b = b'
        · subst hbb
          simp at h
          exact h ▸ hcanon
        · rw [if_neg hbb] at h
          exact hsound b' id h
      · intro b' id h
        rw [aget_aset]
        by_cases hbb : b = b'
        · subst hbb
          rw [hb] at h
          exact absurd h (by simp)
        · rw [if_neg hbb]
          exact h
  · simp only [hb]
    exact ⟨(hsound b id hb).symm, ⟨hsound, hcc⟩, by simp, fun b' id' h => h,
      fun h => h, Or.inl (by simp [hb])⟩

/-- A second-call invocation of `findCoinGeckoIdBySymbol`: when the symbol is
already cached or the coins list is cached and fresh, it issues no network
request, returns the canonical search result and only (soundly) extends the
symbol cache. -/
theorem findCoinGeckoIdBySymbol_warm (env : CGEnv) (t₁ : Nat) (st : MDState)
    (b : String) (hsound : SoundSymCache env st)
    (hready : (aget st.symbolToIdCache b).isSome ∨
      (st.coinsListCache = some env.coinsList ∧
        t₁ - st.coinsListCacheTime < COINS_LIST_CACHE_TTL)) :
    (findCoinGeckoIdBySymbol env t₁ st b).1 = canonSearch env b ∧
    (findCoinGeckoIdBySymbol env t₁ st b).2.2 = 0 ∧
    SoundSymCache env (findCoinGeckoIdBySymbol env t₁ st b).2.1 ∧
    (findCoinGeckoIdBySymbol env t₁ st b).2.1.marketDataCache = st.marketDataCache ∧
    (findCoinGeckoIdBySymbol env t₁ st b).2.1.coinsListCache = st.coinsListCache ∧
    (findCoinGeckoIdBySymbol env t₁ st b).2.1.coinsListCacheTime = st.coinsListCacheTime ∧
    (∀ b' id, aget st.symbolToIdCache b' = some id →
      aget (findCoinGeckoIdBySymbol env t₁ st b).2.1.symbolToIdCache b' = some id) := by
  unfold findCoinGeckoIdBySymbol
  rcases hb : aget st.symbolToIdCache b with _ | id
  · rcases hready with hhit | ⟨hsome, ht⟩
    · rw [hb] at hhit
      exact absurd hhit (by simp)
    · rw [getCoinsList_warm env t₁ st hsome ht]
      simp only [hb]
      rcases hfind : env.coinsList.find? (fun coin => strToUpper coin.symbol == strToUpper b)
        with _ | coin <;> simp only [hfind]
      · exact ⟨by simp [canonSearch, hfind], by simp, hsound, by simp, by simp,
          by simp, fun b' id h => h⟩
      · have hcanon : canonSearch env b = some coin.id := by simp [canonSearch, hfind]
        refine ⟨hcanon.symm, by simp, ?_, by simp, by simp, by simp, ?_⟩
        · intro b' id h
          rw [aget_aset] at h
          by_cases hbb : b = b'
          · subst hbb
            simp at h
            exact h ▸ hcanon
          · rw [if_neg hbb] at h
            exact hsound b' id h
        · intro b' id h
          rw [aget_aset]
          by_cases hbb : b = b'
          · subst hbb
            rw [hb] at h
            exact absurd h (by simp)
          · rw [if_neg hbb]
            exact h
  · simp only [hb]
    exact ⟨(hsound b id hb).symm, by simp, hsound, by simp, by simp, by simp,
      fun b' id' h => h⟩

theorem canonMapFold_nil (env : CGEnv) (acc : List (String × String)) :
    canonMapFold env [] acc = acc := rfl

theorem canonMapFold_cons_some (env : CGEnv) (b : String) (bs : List String)
    (acc : List (String × String)) (id : String)
    (h : canonResolve env b = some id) :
    canonMapFold env (b :: bs) acc = canonMapFold env bs (aset acc b id) := by
  simp [canonMapFold, setOptFold, h]

theorem canonMapFold_cons_none (env : CGEnv) (b : String) (bs : List String)
    (acc : List (String × String)) (h : canonResolve env b = none) :
    canonMapFold env (b :: bs) acc = canonMapFold env bs acc := by
  simp [canonMapFold, setOptFold, h]

/-- A first (cold-state) run of the resolution loop: it builds the canonical
resolution map, preserves the call-one invariant, leaves the market-data
cache untouched, and leaves every visited base symbol ready for a warm
re-resolution. -/
theorem resolveBaseSymbols_first (env : CGEnv) (t₀ : Nat) (hc : env.coinsOk = true) :
    ∀ (bases : List String) (st : MDState) (acc : List (String × String)),
      CallOneInv env t₀ st →
      (resolveBaseSymbols env t₀ bases st acc).1 = canonMapFold env bases acc ∧
      CallOneInv env t₀ (resolveBaseSymbols env t₀ bases st acc).2.1 ∧
      (resolveBaseSymbols env t₀ bases st acc).2.1.marketDataCache = st.marketDataCache ∧
      (∀ b' id, aget st.symbolToIdCache b' = some id →
        aget (resolveBaseSymbols env t₀ bases st acc).2.1.symbolToIdCache b' = some id) ∧
      ((st.coinsListCache = some env.coinsList ∧ st.coinsListCacheTime = t₀) →
        (resolveBaseSymbols env t₀ bases st acc).2.1.coinsListCache = some env.coinsList ∧
        (resolveBaseSymbols env t₀ bases st acc).2.1.coinsListCacheTime = t₀) ∧
      (∀ b ∈ bases,
        (aget symbolToCoinGeckoId b).isSome ∨
        (aget (resolveBaseSymbols env t₀ bases st acc).2.1.symbolToIdCache b).isSome ∨
        ((resolveBaseSymbols env t₀ bases st acc).2.1.coinsListCache = some env.coinsList ∧
         (resolveBaseSymbols env t₀ bases st acc).2.1.coinsListCacheTime = t₀)) := by
  intro bases
  induction bases with
  | nil =>
    intro st acc hinv
    exact ⟨rfl, hinv, rfl, fun b' id h => h, fun h => h, by simp⟩
  | cons b bs ih =>
    intro st acc hinv
    rcases hstatic : aget symbolToCoinGeckoId b with _ | id
    · -- static table miss: findCoinGeckoIdBySymbol runs
      have hf := findCoinGeckoIdBySymbol_first env t₀ st b hc hinv
      obtain ⟨hf1, hfinv, hfmd, hfpers, hfcoins, hfready⟩ := hf
      have hres : canonResolve env b = canonSearch env b := by
        simp [canonResolve, hstatic]
      have heq : resolveBaseSymbols env t₀ (b :: bs) st acc =
          (let f := findCoinGeckoIdBySymbol env t₀ st b
           let acc1 := match f.1 with
             | some id => aset acc b id
             | none => acc
           let rest := resolveBaseSymbols env t₀ bs f.2.1 acc1
           (rest.1, rest.2.1, f.2.2 + rest.2.2)) := by
        simp only [resolveBaseSymbols, hstatic]
      set f := findCoinGeckoIdBySymbol env t₀ st b with hfdef
      set acc1 := (match f.1 with
        | some id => aset acc b id
        | none => acc) with hacc1
      have hrec := ih f.2.1 acc1 hfinv
      obtain ⟨hr1, hrinv, hrmd, hrpers, hrcoins, hrready⟩ := hrec
      have hmap : canonMapFold env (b :: bs) acc = canonMapFold env bs acc1 := by
        rcases hcs : canonSearch env b with _ | cid
        · rw [canonMapFold_cons_none env b bs acc (hres.trans hcs)]
          have : acc1 = acc := by rw [hacc1, hf1, hcs]
          rw [this]
        · rw [canonMapFold_cons_some env b bs acc cid (hres.trans hcs)]
          have : acc1 = aset acc b cid := by rw [hacc1, hf1, hcs]
          rw [this]
      rw [heq]
      refine ⟨by simpa [hmap] using hr1, hrinv, by rw [hrmd, hfmd], ?_, ?_, ?_⟩
      · intro b' id h
        exact hrpers b' id (hfpers b' id h)
      · intro h
        exact hrcoins (hfcoins h)
      · intro b' hb'
        rcases List.mem_cons.1 hb' with hb' | hb'
        · subst hb'
          rcases hfready with hready | hready
          · rcases Option.isSome_iff_exists.1 hready with ⟨id, hid⟩
            exact Or.inr (Or.inl (Option.isSome_iff_exists.2 ⟨id, hrpers b' id hid⟩))
          · exact Or.inr (Or.inr (hrcoins hready))
        · exact hrready b' hb'
    · -- static table hit
      have hres : canonResolve env b = some id := by
        simp [canonResolve, hstatic]
      have heq : resolveBaseSymbols env t₀ (b :: bs) st acc =
          resolveBaseSymbols env t₀ bs st (aset acc b id) := by
        simp only [resolveBaseSymbols, hstatic]
      have hrec := ih st (aset acc b id) hinv
      obtain ⟨hr1, hrinv, hrmd, hrpers, hrcoins, hrready⟩ := hrec
      rw [heq]
      refine ⟨?_, hrinv, hrmd, hrpers, hrcoins, ?_⟩
      · rw [hr1, canonMapFold_cons_some env b bs acc id hres]
      · intro b' hb'
        rcases List.mem_cons.1 hb' with hb' | hb'
        · subst hb'
          exact Or.inl (by simp [hstatic])
        · exact hrready b' hb'

/-- A warm run of the resolution loop (every base symbol is either in the
static table, in the symbol cache, or resolvable from a fresh cached coins
list): it builds the canonical map with zero network requests and leaves the
market-data cache untouched. -/
theorem resolveBaseSymbols_warm (env : CGEnv) (t₁ : Nat) :
    ∀ (bases : List String) (st : MDState) (acc : List (String × String)),
      SoundSymCache env st →
      (∀ b ∈ bases, (aget symbolToCoinGeckoId b).isSome ∨
        (aget st.symbolToIdCache b).isSome ∨
        (st.coinsListCache = some env.coinsList ∧
          t₁ - st.coinsListCacheTime < COINS_LIST_CACHE_TTL)) →
      (resolveBaseSymbols env t₁ bases st acc).1 = canonMapFold env bases acc ∧
      (resolveBaseSymbols env t₁ bases st acc).2.2 = 0 ∧
      (resolveBaseSymbols env t₁ bases st acc).2.1.marketDataCache = st.marketDataCache := by
  intro bases
  induction bases with
  | nil =>
    intro st acc _ _
    exact ⟨rfl, rfl, rfl⟩
  | cons b bs ih =>
    intro st acc hsound hready
    rcases hstatic : aget symbolToCoinGeckoId b with _ | id
    · have hb := hready b (List.mem_cons_self b bs)
      have hbwarm : (aget st.symbolToIdCache b).isSome ∨
          (st.coinsListCache = some env.coinsList ∧
            t₁ - st.coinsListCacheTime < COINS_LIST_CACHE_TTL) := by
        rcases hb with hb | hb
        · rw [hstatic] at hb
          exact absurd hb (by simp)
        · exact hb
      have hf := findCoinGeckoIdBySymbol_warm env t₁ st b hsound hbwarm
      obtain ⟨hf1, hfn, hfsound, hfmd, hfcl, hfct, hfpers⟩ := hf
      have hres : canonResolve env b = canonSearch env b := by
        simp [canonResolve, hstatic]
      have heq : resolveBaseSymbols env t₁ (b :: bs) st acc =
          (let f := findCoinGeckoIdBySymbol env t₁ st b
           let acc1 := match f.1 with
             | some id => aset acc b id
             | none => acc
           let rest := resolveBaseSymbols env t₁ bs f.2.1 acc1
           (rest.1, rest.2.1, f.2.2 + rest.2.2)) := by
        simp only [resolveBaseSymbols, hstatic]
      set f := findCoinGeckoIdBySymbol env t₁ st b with hfdef
      set acc1 := (match f.1 with
        | some id => aset acc b id
        | none => acc) with hacc1
      have hready' : ∀ b' ∈ bs, (aget symbolToCoinGeckoId b').isSome ∨
          (aget f.2.1.symbolToIdCache b').isSome ∨
          (f.2.1.coinsListCache = some env.coinsList ∧
            t₁ - f.2.1.coinsListCacheTime < COINS_LIST_CACHE_TTL) := by
        intro b' hb'
        rcases hready b' (List.mem_cons_of_mem b hb') with h | h | h
        · exact Or.inl h
        · rcases Option.isSome_iff_exists.1 h with ⟨id, hid⟩
          exact Or.inr (Or.inl (Option.isSome_iff_exists.2 ⟨id, hfpers b' id hid⟩))
        · exact Or.inr (Or.inr (by rw [hfcl, hfct]; exact h))
      have hrec := ih f.2.1 acc1 hfsound hready'
      obtain ⟨hr1, hrn, hrmd⟩ := hrec
      have hmap : canonMapFold env (b :: bs) acc = canonMapFold env bs acc1 := by
        rcases hcs : canonSearch env b with _ | cid
        · rw [canonMapFold_cons_none env b bs acc (hres.trans hcs)]
          have : acc1 = acc := by rw [hacc1, hf1, hcs]
          rw [this]
        · rw [canonMapFold_cons_some env b bs acc cid (hres.trans hcs)]
          have : acc1 = aset acc b cid := by rw [hacc1, hf1, hcs]
          rw [this]
      rw [heq]
      exact ⟨by simpa [hmap] using hr1, by simp [hfn, hrn], by rw [hrmd, hfmd]⟩
    · have hres : canonResolve env b = some id := by
        simp [canonResolve, hstatic]
      have heq : resolveBaseSymbols env t₁ (b :: bs) st acc =
          resolveBaseSymbols env t₁ bs st (aset acc b id) := by
        simp only [resolveBaseSymbols, hstatic]
      have hready' : ∀ b' ∈ bs, (aget symbolToCoinGeckoId b').isSome ∨
          (aget st.symbolToIdCache b').isSome ∨
          (st.coinsListCache = some env.coinsList ∧
            t₁ - st.coinsListCacheTime < COINS_LIST_CACHE_TTL) :=
        fun b' hb' => hready b' (List.mem_cons_of_mem b hb')
      have hrec := ih st (aset acc b id) hsound hready'
      obtain ⟨hr1, hrn, hrmd⟩ := hrec
      rw [heq]
      exact ⟨by rw [hr1, canonMapFold_cons_some env b bs acc id hres], hrn, hrmd⟩

theorem partitionCachedAux_nilCache (now : Nat) :
    ∀ (ids : List String) (rm : List (String × MarketData)) (un : List String),
      partitionCachedAux now [] rm un ids = (rm, un ++ ids) := by
  intro ids
  induction ids with
  | nil => intro rm un; simp [partitionCachedAux]
  | cons id ids ih =>
    intro rm un
    rw [partitionCachedAux]
    simp only [aget_nil]
    rw [ih]
    simp

/-- When every id is cached with a fresh timestamp, the partition loop moves
all of them into the result map and produces no uncached ids. -/
theorem partitionCachedAux_warm (now t₀ : Nat)
    (mdCache : List (String × (MarketData × Nat))) (f : String → MarketData)
    (ht : now - t₀ < CACHE_TTL) :
    ∀ (ids : List String) (rm : List (String × MarketData)) (un : List String),
      (∀ id ∈ ids, aget mdCache id = some (f id, t₀)) →
      partitionCachedAux now mdCache rm un ids =
        (ids.foldl (fun m id => aset m id (f id)) rm, un) := by
  intro ids
  induction ids with
  | nil => intro rm un _; simp [partitionCachedAux]
  | cons id ids ih =>
    intro rm un h
    rw [partitionCachedAux]
    rw [h id (List.mem_cons_self id ids)]
    simp only [ht, if_pos]
    rw [ih (aset rm id (f id)) un (fun id' hid' => h id' (List.mem_cons_of_mem id hid'))]
    simp

theorem join_batches250 (l : List String) : (batches250 l).flatten = l := by
  induction l using batches250.induct with
  | case1 => simp [batches250]
  | case2 x xs ih =>
    rw [batches250]
    simp only [List.flatten_cons]
    rw [ih, List.take_append_drop]

theorem fetchBatches_nil (env : CGEnv) (now : Nat)
    (rm : List (String × MarketData)) (mc : List (String × (MarketData × Nat))) :
    fetchBatches env now [] rm mc = (rm, mc, 0) := rfl

/-- Lookups into the maps built by the fetch loop (when `/coins/markets`
requests succeed): every fetched id maps to its canonical data (timestamped
`now` in the cache); other keys are untouched. -/
theorem fetchBatches_lookup (env : CGEnv) (now : Nat) (hm : env.marketsOk = true) :
    ∀ (bl : List (List String)) (rm : List (String × MarketData))
      (mc : List (String × (MarketData × Nat))) (k : String),
      aget (fetchBatches env now bl rm mc).1 k =
        (if k ∈ bl.flatten then some (fetchedData env k) else aget rm k) ∧
      aget (fetchBatches env now bl rm mc).2.1 k =
        (if k ∈ bl.flatten then some (fetchedData env k, now) else aget mc k) := by
  intro bl
  induction bl with
  | nil => intro rm mc k; simp [fetchBatches]
  | cons batch rest ih =>
    intro rm mc k
    by_cases hbe : batch = []
    · subst hbe
      have hbd : getBatchMarketData env [] = ([], 0) := by simp [getBatchMarketData]
      rw [fetchBatches]
      simp only [hbd, List.foldl_nil]
      have := ih rm mc k
      simpa using this
    · have hbd : getBatchMarketData env batch =
          (batch.map (fun id => (id, fetchedData env id)), 1) := by
        simp [getBatchMarketData, hbe, hm]
      rw [fetchBatches]
      simp only [hbd]
      have hrm1 : ∀ k', aget ((batch.map (fun id => (id, fetchedData env id))).foldl
          (fun m p => aset m p.1 p.2) rm) k' =
          if k' ∈ batch then some (fetchedData env k') else aget rm k' := by
        intro k'
        rw [List.foldl_map]
        exact aget_foldl_set (fetchedData env) batch rm k'
      have hmc1 : ∀ k', aget ((batch.map (fun id => (id, fetchedData env id))).foldl
          (fun m p => aset m p.1 (p.2, now)) mc) k' =
          if k' ∈ batch then some (fetchedData env k', now) else aget mc k' := by
        intro k'
        rw [List.foldl_map]
        exact aget_foldl_set (fun id => (fetchedData env id, now)) batch mc k'
      have hrec := ih ((batch.map (fun id => (id, fetchedData env id))).foldl
          (fun m p => aset m p.1 p.2) rm)
        ((batch.map (fun id => (id, fetchedData env id))).foldl
          (fun m p => aset m p.1 (p.2, now)) mc) k
      obtain ⟨hrec1, hrec2⟩ := hrec
      constructor
      · rw [hrec1, hrm1 k]
        by_cases h1 : k ∈ rest.flatten <;> by_cases h2 : k ∈ batch <;>
          simp [List.flatten_cons, List.mem_append, h1, h2]
      · rw [hrec2, hmc1 k]
        by_cases h1 : k ∈ rest.flatten <;> by_cases h2 : k ∈ batch <;>
          simp [List.flatten_cons, List.mem_append, h1, h2]

theorem getBatchMarketDataForSymbols_eq (env : CGEnv) (now : Nat) (st : MDState)
    (symbols : List String) :
    getBatchMarketDataForSymbols env now st symbols =
      getBatchAfterResolve env now symbols
        (resolveBaseSymbols env now (baseSymbolsOf symbols) st []).1
        (resolveBaseSymbols env now (baseSymbolsOf symbols) st []).2.1
        (resolveBaseSymbols env now (baseSymbolsOf symbols) st []).2.2 := rfl

/-- The final mapping loop computes `canonEntry` for every symbol, provided
the result map holds the canonical data for exactly the resolved coin ids. -/
theorem symbolMap_canon (env : CGEnv) (symbols : List String)
    (rm : List (String × MarketData))
    (hlook : ∀ k, aget rm k =
      if k ∈ (canonMap env symbols).map (·.2) then some (fetchedData env k)
      else none) :
    ∀ s, (match aget (canonMap env symbols) (extractBaseSymbol s) with
      | some coinId =>
        match aget rm coinId with
        | some d => (s, d)
        | none => (s, nullMarketData)
      | none => (s, nullMarketData)) = canonEntry env symbols s := by
  intro s
  unfold canonEntry
  rcases hid : aget (canonMap env symbols) (extractBaseSymbol s) with _ | id
  · rfl
  · have hmem : id ∈ (canonMap env symbols).map (·.2) :=
      aget_mem_values (canonMap env symbols) (extractBaseSymbol s) id hid
    simp [hlook id, hmem]

/-- Cold fetch phase: with an empty market-data cache and a successful
`/coins/markets` request, `getBatchAfterResolve` on the canonical resolution
map returns the canonical result and caches every resolved id at `t₀`,
leaving the other caches alone. -/
theorem getBatchAfterResolve_cold (env : CGEnv) (t₀ : Nat) (symbols : List String)
    (st1 : MDState) (n1 : Nat) (hm : env.marketsOk = true)
    (hmd : st1.marketDataCache = []) :
    (getBatchAfterResolve env t₀ symbols (canonMap env symbols) st1 n1).1 =
      canonResult env symbols ∧
    (∀ id ∈ canonIds env symbols,
      aget (getBatchAfterResolve env t₀ symbols (canonMap env symbols) st1 n1).2.1.marketDataCache id =
        some (fetchedData env id, t₀)) ∧
    (getBatchAfterResolve env t₀ symbols (canonMap env symbols) st1 n1).2.1.symbolToIdCache =
      st1.symbolToIdCache ∧
    (getBatchAfterResolve env t₀ symbols (canonMap env symbols) st1 n1).2.1.coinsListCache =
      st1.coinsListCache ∧
    (getBatchAfterResolve env t₀ symbols (canonMap env symbols) st1 n1).2.1.coinsListCacheTime =
      st1.coinsListCacheTime := by
  unfold getBatchAfterResolve
  by_cases hids : (canonMap env symbols).map (·.2) = []
  · rw [if_pos hids]
    refine ⟨?_, ?_, rfl, rfl, rfl⟩
    · rw [canonResult]
      rw [if_pos (by rw [canonIds]; exact hids)]
    · intro id hid
      rw [canonIds, hids] at hid
      exact absurd hid (by simp)
  · rw [if_neg hids]
    rw [hmd, partitionCachedAux_nilCache t₀ ((canonMap env symbols).map (·.2)) [] []]
    simp only [List.nil_append]
    have hlook := fetchBatches_lookup env t₀ hm
      (batches250 ((canonMap env symbols).map (·.2))) [] []
    refine ⟨?_, ?_, by trivial, by trivial, by trivial⟩
    · rw [canonResult, if_neg (by rw [canonIds]; exact hids)]
      refine List.map_congr_left ?_
      intro s _
      refine symbolMap_canon env symbols _ ?_ s
      intro k
      have h := (hlook k).1
      rw [join_batches250] at h
      rw [h, aget_nil]
    · intro id hid
      rw [canonIds] at hid
      have h := (hlook id).2
      rw [join_batches250] at h
      rw [h, if_pos hid]

/-- Warm fetch phase: when every canonical id is cached fresh (written at
`t₀`, read at `t₁` within the TTL), `getBatchAfterResolve` issues no network
request and returns the canonical result. -/
theorem getBatchAfterResolve_warm (env : CGEnv) (t₁ t₀ : Nat)
    (symbols : List String) (st1 : MDState) (n1 : Nat)
    (ht : t₁ - t₀ < CACHE_TTL)
    (hmd : ∀ id ∈ canonIds env symbols,
      aget st1.marketDataCache id = some (fetchedData env id, t₀)) :
    (getBatchAfterResolve env t₁ symbols (canonMap env symbols) st1 n1).1 =
      canonResult env symbols ∧
    (getBatchAfterResolve env t₁ symbols (canonMap env symbols) st1 n1).2.2 = n1 := by
  unfold getBatchAfterResolve
  by_cases hids : (canonMap env symbols).map (·.2) = []
  · rw [if_pos hids]
    exact ⟨by rw [canonResult, if_pos (by rw [canonIds]; exact hids)], rfl⟩
  · rw [if_neg hids]
    have hwarm := partitionCachedAux_warm t₁ t₀ st1.marketDataCache
      (fetchedData env) ht ((canonMap env symbols).map (·.2)) [] []
      (fun id hid => hmd id (by rw [canonIds]; exact hid))
    rw [hwarm]
    simp only [batches250, fetchBatches_nil]
    constructor
    · rw [canonResult, if_neg (by rw [canonIds]; exact hids)]
      refine List.map_congr_left ?_
      intro s _
      refine symbolMap_canon env symbols _ ?_ s
      intro k
      rw [aget_foldl_set (fetchedData env) ((canonMap env symbols).map (·.2)) [] k]
      rw [aget_nil]
    · rfl

/-- Cache state established by a successful first resolver call at `t₀`. -/
def StateInvAfter (env : CGEnv) (symbols : List String) (t₀ : Nat)
    (st : MDState) : Prop :=
  SoundSymCache env st ∧
  (∀ b ∈ baseSymbolsOf symbols,
    (aget symbolToCoinGeckoId b).isSome ∨ (aget st.symbolToIdCache b).isSome ∨
    (st.coinsListCache = some env.coinsList ∧ st.coinsListCacheTime = t₀)) ∧
  (∀ id ∈ canonIds env symbols,
    aget st.marketDataCache id = some (fetchedData env id, t₀))

/-- A first call on cold caches (network requests succeeding) returns the
canonical result and establishes `StateInvAfter`. -/
theorem getBatchMarketDataForSymbols_first (env : CGEnv) (t₀ : Nat)
    (symbols : List String) (hc : env.coinsOk = true) (hm : env.marketsOk = true) :
    (getBatchMarketDataForSymbols env t₀ initMDState symbols).1 =
      canonResult env symbols ∧
    StateInvAfter env symbols t₀
      (getBatchMarketDataForSymbols env t₀ initMDState symbols).2.1 := by
  have hinv0 : CallOneInv env t₀ initMDState :=
    ⟨fun b id h => absurd h (by simp [initMDState, aget_nil]), Or.inl rfl⟩
  have hres := resolveBaseSymbols_first env t₀ hc (baseSymbolsOf symbols)
    initMDState [] hinv0
  obtain ⟨hr1, hrinv, hrmd, _hrpers, _hrcoins, hrready⟩ := hres
  have hM : (resolveBaseSymbols env t₀ (baseSymbolsOf symbols) initMDState []).1 =
      canonMap env symbols := by rw [canonMap]; exact hr1
  rw [getBatchMarketDataForSymbols_eq, hM]
  have hcold := getBatchAfterResolve_cold env t₀ symbols
    (resolveBaseSymbols env t₀ (baseSymbolsOf symbols) initMDState []).2.1
    (resolveBaseSymbols env t₀ (baseSymbolsOf symbols) initMDState []).2.2 hm
    (by rw [hrmd]; rfl)
  obtain ⟨hc1, hc2, hc3, hc4, hc5⟩ := hcold
  refine ⟨hc1, ?_, ?_, hc2⟩
  · intro b id h
    rw [hc3] at h
    exact hrinv.1 b id h
  · intro b hb
    rcases hrready b hb with h | h | ⟨h1, h2⟩
    · exact Or.inl h
    · exact Or.inr (Or.inl (by rw [hc3]; exact h))
    · exact Or.inr (Or.inr ⟨by rw [hc4]; exact h1, by rw [hc5]; exact h2⟩)

/-- A second call within the TTL window returns the canonical result with
zero network requests. -/
theorem getBatchMarketDataForSymbols_second (env : CGEnv) (t₀ t₁ : Nat)
    (symbols : List String) (st : MDState) (_hm : env.marketsOk = true)
    (hinv : StateInvAfter env symbols t₀ st) (ht : t₁ - t₀ < CACHE_TTL) :
    (getBatchMarketDataForSymbols env t₁ st symbols).1 = canonResult env symbols ∧
    (getBatchMarketDataForSymbols env t₁ st symbols).2.2 = 0 := by
  obtain ⟨hsound, hready, hmd⟩ := hinv
  have hready' : ∀ b ∈ baseSymbolsOf symbols, (aget symbolToCoinGeckoId b).isSome ∨
      (aget st.symbolToIdCache b).isSome ∨
      (st.coinsListCache = some env.coinsList ∧
        t₁ - st.coinsListCacheTime < COINS_LIST_CACHE_TTL) := by
    intro b hb
    rcases hready b hb with h | h | ⟨h1, h2⟩
    · exact Or.inl h
    · exact Or.inr (Or.inl h)
    · refine Or.inr (Or.inr ⟨h1, ?_⟩)
      rw [h2]
      unfold CACHE_TTL at ht
      unfold COINS_LIST_CACHE_TTL
      omega
  have hres := resolveBaseSymbols_warm env t₁ (baseSymbolsOf symbols) st [] hsound hready'
  obtain ⟨hr1, hrn, hrmd⟩ := hres
  have hM : (resolveBaseSymbols env t₁ (baseSymbolsOf symbols) st []).1 =
      canonMap env symbols := by rw [canonMap]; exact hr1
  rw [getBatchMarketDataForSymbols_eq, hM, hrn]
  exact getBatchAfterResolve_warm env t₁ t₀ symbols
    (resolveBaseSymbols env t₁ (baseSymbolsOf symbols) st []).2.1 0 ht
    (by intro id hid; rw [hrmd]; exact hmd id hid)

theorem mem_dedupFirstAux (x : String) :
    ∀ (l seen : List String), x ∈ dedupFirstAux seen l ↔ x ∈ l ∧ x ∉ seen := by
  intro l
  induction l with
  | nil => intro seen; simp [dedupFirstAux]
  | cons y ys ih =>
    intro seen
    rw [dedupFirstAux]
    by_cases hy : y ∈ seen
    · rw [if_pos hy, ih]
      constructor
      · rintro ⟨h1, h2⟩
        exact ⟨List.mem_cons_of_mem y h1, h2⟩
      · rintro ⟨h1, h2⟩
        rcases List.mem_cons.1 h1 with h | h
        · exact absurd (h ▸ hy) h2
        · exact ⟨h, h2⟩
    · rw [if_neg hy]
      constructor
      · intro h
        rcases List.mem_cons.1 h with h | h
        · subst h
          exact ⟨List.mem_cons_self x ys, hy⟩
        · rw [ih] at h
          refine ⟨List.mem_cons_of_mem y h.1, ?_⟩
          intro hx
          exact h.2 (List.mem_cons_of_mem y hx)
      · rintro ⟨h1, h2⟩
        rcases List.mem_cons.1 h1 with h | h
        · exact h ▸ List.mem_cons_self y (dedupFirstAux (y :: seen) ys)
        · by_cases hxy : x = y
          · exact hxy ▸ List.mem_cons_self y (dedupFirstAux (y :: seen) ys)
          · refine List.mem_cons_of_mem y ((ih (y :: seen)).2 ⟨h, ?_⟩)
            intro hx
            rcases List.mem_cons.1 hx with h' | h'
            · exact hxy h'
            · exact h2 h'

theorem mem_dedupFirst (x : String) (l : List String) :
    x ∈ dedupFirst l ↔ x ∈ l := by
  rw [dedupFirst, mem_dedupFirstAux]
  simp

/-- The market-data value attached to one input symbol in the canonical
result. -/
def canonValue (env : CGEnv) (symbols : List String) (s : String) : MarketData :=
  match aget (canonMap env symbols) (extractBaseSymbol s) with
  | some id => fetchedData env id
  | none => nullMarketData

theorem canonEntry_eq_pair (env : CGEnv) (symbols : List String) (s : String) :
    canonEntry env symbols s = (s, canonValue env symbols s) := by
  unfold canonEntry canonValue
  rcases aget (canonMap env symbols) (extractBaseSymbol s) with _ | id <;> rfl

/-- Witness environment: one static-table coin (BTC) resolvable, provider
rows only for `bitcoin`, and a coins list that cannot resolve `QQQ`. -/
def cgEnvW : CGEnv :=
  { coinsOk := true,
    coinsList := [{ id := "zeta-coin", symbol := "ZETA2", name := "Zeta" }],
    marketsOk := true,
    markets := fun id =>
      if id = "bitcoin" then
        some { id := "bitcoin", market_cap := some 1000000000,
               fully_diluted_valuation := some 2000000000,
               name := "Bitcoin", image := "btc.png" }
      else none }

/-- C6: calling the Market-Data Resolver a second time with the same symbol
set, within the market-data cache TTL of a first cold-cache call whose
network requests succeeded, issues zero additional network requests and
returns values identical to the first call's result — for every symbol in
the set, including symbols that failed identifier resolution the first
time. -/
theorem C6_second_call_idempotent (env : CGEnv) (symbols : List String)
    (t₀ t₁ : Nat) (hc : env.coinsOk = true) (hm : env.marketsOk = true)
    (ht : t₁ - t₀ < CACHE_TTL) :
    (getBatchMarketDataForSymbols env t₁
        (getBatchMarketDataForSymbols env t₀ initMDState symbols).2.1 symbols).1 =
      (getBatchMarketDataForSymbols env t₀ initMDState symbols).1 ∧
    (getBatchMarketDataForSymbols env t₁
        (getBatchMarketDataForSymbols env t₀ initMDState symbols).2.1 symbols).2.2 = 0 := by
  have h1 := getBatchMarketDataForSymbols_first env t₀ symbols hc hm
  have h2 := getBatchMarketDataForSymbols_second env t₀ t₁ symbols
    (getBatchMarketDataForSymbols env t₀ initMDState symbols).2.1 hm h1.2 ht
  exact ⟨h2.1.trans h1.1.symm, h2.2⟩

theorem C6_second_call_idempotent_witness :
    (getBatchMarketDataForSymbols cgEnvW 50000
        (getBatchMarketDataForSymbols cgEnvW 0 initMDState ["BTCUSDT", "QQQUSDT"]).2.1
        ["BTCUSDT", "QQQUSDT"]).1 =
      (getBatchMarketDataForSymbols cgEnvW 0 initMDState ["BTCUSDT", "QQQUSDT"]).1 ∧
    (getBatchMarketDataForSymbols cgEnvW 50000
        (getBatchMarketDataForSymbols cgEnvW 0 initMDState ["BTCUSDT", "QQQUSDT"]).2.1
        ["BTCUSDT", "QQQUSDT"]).2.2 = 0 :=
  C6_second_call_idempotent cgEnvW ["BTCUSDT", "QQQUSDT"] 0 50000 rfl rfl (by decide)

/-- Environment where no symbol can be resolved to a provider id. -/
def cgEnvResolveFail : CGEnv :=
  { coinsOk := true, coinsList := [], marketsOk := true, markets := fun _ => none }

/-- C5 counterexample: when no input symbol resolves to a provider id,
`getBatchMarketDataForSymbols` returns the empty mapping — the input symbol
`ZZZUSDT` has no entry at all (rather than `{marketCap: null, fdv: null}`),
contradicting the claim that the mapping contains an entry for every input
symbol of a non-empty input. -/
theorem C5_counterexample :
    ("ZZZUSDT" ∈ ["ZZZUSDT"]) ∧
    (getBatchMarketDataForSymbols cgEnvResolveFail 0 initMDState ["ZZZUSDT"]).1 = [] ∧
    aget (getBatchMarketDataForSymbols cgEnvResolveFail 0 initMDState ["ZZZUSDT"]).1
      "ZZZUSDT" = none := by decide

/-- C5 (amended): on a first call whose network requests succeed, provided at
least one base symbol resolves to a provider id, the returned mapping has an
entry for every input symbol; symbols that fail identifier resolution, and
symbols whose resolved id has no provider data, map to null market data
(never an error).  When no symbol resolves the function instead returns an
empty mapping. -/
theorem C5_amended_every_symbol_mapped (env : CGEnv) (t₀ : Nat)
    (symbols : List String) (hc : env.coinsOk = true) (hm : env.marketsOk = true)
    (hne : ∃ b ∈ baseSymbolsOf symbols, (canonResolve env b).isSome) :
    ∀ s ∈ symbols, ∃ d,
      aget (getBatchMarketDataForSymbols env t₀ initMDState symbols).1 s = some d ∧
      (canonResolve env (extractBaseSymbol s) = none → d = nullMarketData) ∧
      (∀ id, canonResolve env (extractBaseSymbol s) = some id →
        env.markets id = none → d = nullMarketData) := by
  intro s hs
  have h1 := (getBatchMarketDataForSymbols_first env t₀ symbols hc hm).1
  rw [h1]
  obtain ⟨b, hb, hbsome⟩ := hne
  have hbget : aget (canonMap env symbols) b = canonResolve env b := by
    rw [canonMap, aget_canonMapFold, if_pos ⟨hb, hbsome⟩]
  have hidsne : canonIds env symbols ≠ [] := by
    rcases Option.isSome_iff_exists.1 hbsome with ⟨id, hid⟩
    have hmem : id ∈ (canonMap env symbols).map (·.2) :=
      aget_mem_values _ _ _ (by rw [hbget, hid])
    rw [canonIds]
    exact List.ne_nil_of_mem hmem
  rw [canonResult, if_neg hidsne]
  have hmapeq : symbols.map (canonEntry env symbols) =
      symbols.map (fun s => (s, canonValue env symbols s)) :=
    List.map_congr_left (fun a _ => canonEntry_eq_pair env symbols a)
  rw [hmapeq, aget_map_pair, if_pos hs]
  refine ⟨canonValue env symbols s, rfl, ?_, ?_⟩
  · intro hnone
    have hget : aget (canonMap env symbols) (extractBaseSymbol s) = none := by
      rw [canonMap, aget_canonMapFold,
        if_neg (by rw [hnone]; simp), aget_nil]
    simp [canonValue, hget]
  · intro id hid hmarket
    have hbs : extractBaseSymbol s ∈ baseSymbolsOf symbols := by
      rw [baseSymbolsOf, mem_dedupFirst]
      exact List.mem_map_of_mem extractBaseSymbol hs
    have hget : aget (canonMap env symbols) (extractBaseSymbol s) = some id := by
      rw [canonMap, aget_canonMapFold, if_pos ⟨hbs, by rw [hid]; rfl⟩, hid]
    simp [canonValue, hget, fetchedData, hmarket]

theorem C5_amended_witness :
    ∃ d, aget (getBatchMarketDataForSymbols cgEnvW 0 initMDState
        ["BTCUSDT", "QQQUSDT"]).1 "QQQUSDT" = some d ∧
      (canonResolve cgEnvW (extractBaseSymbol "QQQUSDT") = none →
        d = nullMarketData) ∧
      (∀ id, canonResolve cgEnvW (extractBaseSymbol "QQQUSDT") = some id →
        cgEnvW.markets id = none → d = nullMarketData) :=
  C5_amended_every_symbol_mapped cgEnvW 0 ["BTCUSDT", "QQQUSDT"] rfl rfl
    ⟨"BTC", by decide, by decide⟩ "QQQUSDT" (by decide)

/-! ## Exchange adapters (`src/lib/exchanges/binance.ts`, `bybit.ts`) -/

/-- One normalized per-symbol record as produced by the exchange adapters
(`BinancePerpData` / `BybitPerpData`; the two optional flags exist only on
the Binance side). -/
structure PerpSnapshot where
  symbol : String
  markPrice : ℚ
  lastPrice : ℚ
  openInterest : ℚ
  openInterestValue : ℚ
  insuranceFund : ℚ
  volume24h : ℚ
  fundingRate : ℚ
  nextFundingTime : Int
  fundingIntervalHours : ℚ
  hasFundingData : Option Bool := none
  hasOpenInterestData : Option Bool := none
deriving DecidableEq

structure BinanceExchangeInfoSymbol where
  symbol : String
  contractType : String
  status : String
  fundingIntervalHours : Option ℚ
deriving DecidableEq

structure BinancePremiumInfo where
  markPrice : ℚ
  lastFundingRate : ℚ
  nextFundingTime : Int
deriving DecidableEq

structure BinanceTickerInfo where
  lastPrice : ℚ
  quoteVolume : ℚ
deriving DecidableEq

/-- Upstream world of the Binance adapter.  Bulk endpoints (`premiumIndex`,
`ticker/24hr`) are modelled by the per-symbol maps the adapter builds from
their responses; per-symbol requests return `none` on failure. -/
structure BinanceEnv where
  exchangeInfoSymbols : List BinanceExchangeInfoSymbol
  premiumIndex : String → Option BinancePremiumInfo
  ticker24h : String → Option BinanceTickerInfo
  fundingHistory : String → Option (List Int)
  openInterest : String → Option ℚ
  insuranceBalance : String → Option ℚ

/-- `getBinanceSymbols`: active USDT-quoted perpetuals from `exchangeInfo`,
each with `fundingIntervalHours || 8` (`0`, like a missing field, is falsy
and becomes `8`). -/
def getBinanceSymbols (benv : BinanceEnv) : List (String × ℚ) :=
  (benv.exchangeInfoSymbols.filter (fun s =>
    s.contractType == "PERPETUAL" && s.status == "TRADING" &&
      strEndsWith s.symbol "USDT")).map
    (fun s => (s.symbol, match s.fundingIntervalHours with
      | some q => if q = 0 then 8 else q
      | none => 8))

/-- The per-symbol request body of `getBinanceFundingIntervals`: the two
most recent funding timestamps, their absolute delta in hours rounded to the
nearest whole hour and floored at 1; `8` when fewer than two entries come
back or the request failed. -/
def binanceInferredInterval (benv : BinanceEnv) (symbol : String) : ℚ :=
  match benv.fundingHistory symbol with
  | some (t0 :: t1 :: _) =>
    max 1 (jsRoundQ (((|t0 - t1| : ℤ) : ℚ) / (1000 * 60 * 60)))
  | _ => 8

/-- `getBinanceFundingIntervals`: infer the settlement interval for every
symbol (batching only adds delays and is collapsed). -/
def getBinanceFundingIntervals (benv : BinanceEnv) (symbols : List String) :
    List (String × ℚ) :=
  symbols.foldl (fun m symbol => aset m symbol (binanceInferredInterval benv symbol)) []

/-- `markPricesForOi`: the premium-index mark price, falling back to the
24h-ticker last price. -/
def markPricesForOi (benv : BinanceEnv) (symbol : String) : Option ℚ :=
  match benv.premiumIndex symbol with
  | some p => some p.markPrice
  | none => (benv.ticker24h symbol).map (·.lastPrice)

/-- `getBinanceOpenInterest` restricted to one symbol: contract count from
the open-interest endpoint, notional = contracts × best-available mark price
(`markPrices.get(symbol) || 0`); `none` when the request failed, in which
case the symbol is absent from the adapter's OI map. -/
def getBinanceOpenInterest (benv : BinanceEnv) (symbol : String) : Option (ℚ × ℚ) :=
  (benv.openInterest symbol).map (fun contracts =>
    (contracts, contracts * ((markPricesForOi benv symbol).getD 0)))

/-- `getBinanceInsuranceFund` restricted to one symbol: the USDT
`marginBalance` returned for the symbol, `0` when the USDT asset is missing
or the request failed. -/
def getBinanceInsuranceFund (benv : BinanceEnv) (symbol : String) : ℚ :=
  (benv.insuranceBalance symbol).getD 0

/-- The loop body of `getBinancePerps` for one symbol: skip symbols with
neither premium-index nor ticker data, otherwise build the record; open
interest degrades to `0` when its request failed, and
`fundingIntervalHours` comes from the inferred-interval map (which covers
every symbol; the source's trailing `?? fundingIntervalHours ?? 8` is the
unreachable fallback to the `exchangeInfo` value). -/
def binanceRecordFor (benv : BinanceEnv) (computedIntervals : List (String × ℚ))
    (p : String × ℚ) : Option PerpSnapshot :=
  let symbol := p.1
  let premiumData := benv.premiumIndex symbol
  let tickerData := benv.ticker24h symbol
  if premiumData.isNone && tickerData.isNone then none
  else
    let oi := getBinanceOpenInterest benv symbol
    let fund := getBinanceInsuranceFund benv symbol
    let intervalHours := (aget computedIntervals symbol).getD p.2
    some { symbol := symbol,
           markPrice := (premiumData.map (·.markPrice) <|>
             tickerData.map (·.lastPrice)).getD 0,
           lastPrice := (tickerData.map (·.lastPrice) <|>
             premiumData.map (·.markPrice)).getD 0,
           openInterest := (oi.map (·.1)).getD 0,
           openInterestValue := (oi.map (·.2)).getD 0,
           insuranceFund := fund,
           volume24h := (tickerData.map (·.quoteVolume)).getD 0,
           fundingRate := (premiumData.map (·.lastFundingRate)).getD 0,
           nextFundingTime := (premiumData.map (·.nextFundingTime)).getD 0,
           fundingIntervalHours := intervalHours,
           hasFundingData := some premiumData.isSome,
           hasOpenInterestData := some oi.isSome }

def getBinancePerps (benv : BinanceEnv) : List PerpSnapshot :=
  let symbolsData := getBinanceSymbols benv
  let computedIntervals := getBinanceFundingIntervals benv (symbolsData.map (·.1))
  symbolsData.filterMap (binanceRecordFor benv computedIntervals)

structure BybitInstrument where
  symbol : String
  status : String
  fundingInterval : Option Int
deriving DecidableEq

structure BybitTicker where
  markPrice : ℚ
  lastPrice : ℚ
  turnover24h : ℚ
  fundingRate : ℚ
  nextFundingTime : Int
deriving DecidableEq

/-- One `/v5/market/insurance` pool: a comma-separated symbol list and its
parsed balance. -/
structure BybitPool where
  symbols : String
  balance : ℚ
deriving DecidableEq

/-- Upstream world of the Bybit adapter; `insurancePools` is `none` when the
insurance request failed or returned a bad `retCode`. -/
structure BybitEnv where
  instruments : List BybitInstrument
  tickers : String → Option BybitTicker
  openInterest : String → Option ℚ
  insurancePools : Option (List BybitPool)

/-- The filtered instruments list of `getBybitPerps`: trading USDT-quoted
contracts, each with `parseInt(fundingInterval || '480')` minutes (a missing
or empty field falls back to 480; a literal `'0'` stays 0). -/
def bybitSymbolsData (yenv : BybitEnv) : List (String × Int) :=
  (yenv.instruments.filter (fun i =>
    i.status == "Trading" && strEndsWith i.symbol "USDT")).map
    (fun i => (i.symbol, (i.fundingInterval).getD 480))

/-- The per-symbol open-interest request of `getBybitPerps`: contracts in
base currency and notional = contracts × ticker mark price; `none` when the
request failed or returned no rows (the symbol is then absent from
`oiMap`). -/
def bybitOpenInterest (yenv : BybitEnv) (symbol : String) : Option (ℚ × ℚ) :=
  (yenv.openInterest symbol).map (fun contracts =>
    (contracts, contracts * (((yenv.tickers symbol).map (·.markPrice)).getD 0)))

/-- The insurance-pool distribution loop of `getBybitPerps`: every pool with
positive balance and a non-empty symbol string assigns the **full** pool
balance to each of its listed symbols that is in the active list, keeping
the maximum when a symbol appears in several pools. -/
def buildBybitInsuranceFundMap (pools : List BybitPool) (symbols : List String) :
    List (String × ℚ) :=
  pools.foldl (fun m pool =>
    let balance := pool.balance
    let symbolsStr := pool.symbols
    if 0 < balance ∧ symbolsStr ≠ "" then
      ((splitOnChar ',' symbolsStr).map strTrim).foldl (fun m sym =>
        if sym ∈ symbols then
          aset m sym (max ((aget m sym).getD 0) balance)
        else m) m
    else m) []

/-- The loop body of `getBybitPerps` for one symbol: a record is produced
only when the ticker exists, **the open-interest entry exists**, and a mark
or last price is positive; the insurance fund defaults to `0` and
`fundingIntervalHours = fundingInterval / 60`. -/
def bybitRecordFor (yenv : BybitEnv) (insuranceFundMap : List (String × ℚ))
    (p : String × Int) : Option PerpSnapshot :=
  let symbol := p.1
  match yenv.tickers symbol with
  | none => none
  | some ticker =>
    let oi := bybitOpenInterest yenv symbol
    let fund := (aget insuranceFundMap symbol).getD 0
    match oi with
    | some oiv =>
      if 0 < ticker.markPrice ∨ 0 < ticker.lastPrice then
        some { symbol := symbol, markPrice := ticker.markPrice,
               lastPrice := ticker.lastPrice,
               openInterest := oiv.1, openInterestValue := oiv.2,
               insuranceFund := fund, volume24h := ticker.turnover24h,
               fundingRate := ticker.fundingRate,
               nextFundingTime := ticker.nextFundingTime,
               fundingIntervalHours := (p.2 : ℚ) / 60 }
      else none
    | none => none

def getBybitPerps (yenv : BybitEnv) : List PerpSnapshot :=
  let symbolsData := bybitSymbolsData yenv
  if symbolsData.isEmpty then [] else
  let symbols := symbolsData.map (·.1)
  let insuranceFundMap :=
    buildBybitInsuranceFundMap ((yenv.insurancePools).getD []) symbols
  symbolsData.filterMap (bybitRecordFor yenv insuranceFundMap)

/-! ## `GET /api/perps` (the aggregation route) -/

/-- `PerpData` of `src/app/api/perps/route.ts`. -/
structure PerpData where
  symbol : String
  exchange : String
  price : ℚ
  openInterest : ℚ
  openInterestValue : ℚ
  insuranceFund : ℚ
  fundOiRatio : ℚ
  marketCap : Option ℚ
  fdv : Option ℚ
  volume24h : ℚ
  fundingRate : ℚ
  nextFundingTime : Int
  fundingIntervalHours : ℚ
  coinName : Option String := none
  coinImage : Option String := none
deriving DecidableEq

/-- The per-item record built in the two `forEach` blocks of
`GET /api/perps`: `fundOiRatio = insuranceFund / openInterestValue × 100`
when the notional is positive, else `0`; `price = markPrice || lastPrice`;
market data is filled in later. -/
def toPerpData (exchange : String) (item : PerpSnapshot) : PerpData :=
  { symbol := item.symbol,
    exchange := exchange,
    price := jsOrQ item.markPrice item.lastPrice,
    openInterest := item.openInterest,
    openInterestValue := item.openInterestValue,
    insuranceFund := item.insuranceFund,
    fundOiRatio :=
      if 0 < item.openInterestValue then
        item.insuranceFund / item.openInterestValue * 100
      else 0,
    marketCap := none,
    fdv := none,
    volume24h := item.volume24h,
    fundingRate := item.fundingRate,
    nextFundingTime := item.nextFundingTime,
    fundingIntervalHours := item.fundingIntervalHours }

/-- The market-data fill-in loop of `GET /api/perps`: copy
marketCap/fdv/name/image onto a record whose symbol has market data. -/
def fillMarketData (marketDataMap : String → Option MarketData)
    (perp : PerpData) : PerpData :=
  match marketDataMap perp.symbol with
  | some md =>
    { perp with marketCap := md.marketCap, fdv := md.fdv,
                coinName := md.name, coinImage := md.image }
  | none => perp

/-- `GET /api/perps` after the adapter calls: build `perpsMap` keyed by
`symbol-exchange` (Binance first, then Bybit), fill in market data (the
mapping returned by the batched market-data lookup, passed as a function),
and return the map's values. -/
def perpsGET (binanceData bybitData : List PerpSnapshot)
    (marketDataMap : String → Option MarketData) : List PerpData :=
  let perpsMap := bybitData.foldl
    (fun m item => aset m (item.symbol ++ "-Bybit") (toPerpData "Bybit" item))
    (binanceData.foldl
      (fun m item => aset m (item.symbol ++ "-Binance") (toPerpData "Binance" item)) [])
  (perpsMap.map (·.2)).map (fillMarketData marketDataMap)

theorem mem_values_foldl_aset {β : Type} (f : PerpSnapshot → β)
    (key : PerpSnapshot → String) :
    ∀ (l : List PerpSnapshot) (m0 : List (String × β)) (v : β),
      v ∈ ((l.foldl (fun m item => aset m (key item) (f item)) m0).map (·.2)) →
      v ∈ m0.map (·.2) ∨ ∃ item ∈ l, v = f item := by
  intro l
  induction l with
  | nil => intro m0 v h; exact Or.inl h
  | cons a rest ih =>
    intro m0 v h
    rcases ih (aset m0 (key a) (f a)) v h with h' | ⟨item, hitem, hv⟩
    · rcases mem_values_aset m0 (key a) (f a) v h' with h'' | h''
      · exact Or.inr ⟨a, List.mem_cons_self a rest, h''⟩
      · exact Or.inl h''
    · exact Or.inr ⟨item, List.mem_cons_of_mem a hitem, hv⟩

/-- Every record returned by `perpsGET` is the filled-in translation of an
adapter record. -/
theorem mem_perpsGET (bin byb : List PerpSnapshot)
    (md : String → Option MarketData) (r : PerpData) (h : r ∈ perpsGET bin byb md) :
    ∃ exchange item,
      ((exchange = "Binance" ∧ item ∈ bin) ∨ (exchange = "Bybit" ∧ item ∈ byb)) ∧
      r = fillMarketData md (toPerpData exchange item) := by
  unfold perpsGET at h
  rcases List.mem_map.1 h with ⟨v, hv, hr⟩
  rcases mem_values_foldl_aset (toPerpData "Bybit") (fun item => item.symbol ++ "-Bybit")
      byb _ v hv with h' | ⟨item, hitem, hveq⟩
  · rcases mem_values_foldl_aset (toPerpData "Binance")
        (fun item => item.symbol ++ "-Binance") bin [] v h' with h'' | ⟨item, hitem, hveq⟩
    · simp at h''
    · exact ⟨"Binance", item, Or.inl ⟨rfl, hitem⟩, by rw [← hr, hveq]⟩
  · exact ⟨"Bybit", item, Or.inr ⟨rfl, hitem⟩, by rw [← hr, hveq]⟩

/-- The fields of a filled-in record in terms of the adapter record. -/
theorem fill_toPerpData_fields (md : String → Option MarketData) (ex : String)
    (item : PerpSnapshot) :
    (fillMarketData md (toPerpData ex item)).symbol = item.symbol ∧
    (fillMarketData md (toPerpData ex item)).price = jsOrQ item.markPrice item.lastPrice ∧
    (fillMarketData md (toPerpData ex item)).openInterestValue = item.openInterestValue ∧
    (fillMarketData md (toPerpData ex item)).insuranceFund = item.insuranceFund ∧
    (fillMarketData md (toPerpData ex item)).fundOiRatio =
      (if 0 < item.openInterestValue then
        item.insuranceFund / item.openInterestValue * 100 else 0) := by
  rcases hmd : md item.symbol with _ | m <;>
    simp [fillMarketData, toPerpData, hmd]

/-- C1: for every `UnifiedPerpRecord` returned by the `GET /api/perps`
aggregation, `fundOiRatio = insuranceFund / openInterestValue × 100` when
`openInterestValue > 0`; `fundOiRatio = 0` when `openInterestValue = 0`
regardless of the insurance-fund balance; and `fundOiRatio ≥ 0` whenever
`insuranceFund ≥ 0` — no division by zero occurs. -/
theorem C1_fundOiRatio (bin byb : List PerpSnapshot)
    (md : String → Option MarketData) (r : PerpData)
    (h : r ∈ perpsGET bin byb md) :
    (0 < r.openInterestValue →
      r.fundOiRatio = r.insuranceFund / r.openInterestValue * 100) ∧
    (r.openInterestValue = 0 → r.fundOiRatio = 0) ∧
    (0 ≤ r.insuranceFund → 0 ≤ r.fundOiRatio) := by
  obtain ⟨ex, item, _, hr⟩ := mem_perpsGET bin byb md r h
  obtain ⟨hsym, hprice, hoiv, hins, hratio⟩ := fill_toPerpData_fields md ex item
  subst hr
  rw [hoiv, hins, hratio]
  refine ⟨fun hpos => by rw [if_pos hpos], fun hz => ?_, fun hins0 => ?_⟩
  · rw [if_neg (by rw [hz]; exact lt_irrefl 0)]
  · by_cases hpos : 0 < item.openInterestValue
    · rw [if_pos hpos]
      exact mul_nonneg (div_nonneg hins0 (le_of_lt hpos)) (by norm_num)
    · rw [if_neg hpos]

def binItemW : PerpSnapshot :=
  { symbol := "BTCUSDT", markPrice := 50000, lastPrice := 49990,
    openInterest := 100, openInterestValue := 5000000, insuranceFund := 500,
    volume24h := 1000, fundingRate := 1/10000, nextFundingTime := 0,
    fundingIntervalHours := 8 }

def perpW : PerpData := fillMarketData (fun _ => none) (toPerpData "Binance" binItemW)

theorem C1_fundOiRatio_witness :
    perpW.fundOiRatio = perpW.insuranceFund / perpW.openInterestValue * 100 ∧
    0 ≤ perpW.fundOiRatio :=
  ⟨(C1_fundOiRatio [binItemW] [] (fun _ => none) perpW
      (List.mem_singleton_self perpW)).1 (by decide),
   (C1_fundOiRatio [binItemW] [] (fun _ => none) perpW
      (List.mem_singleton_self perpW)).2.2 (by decide)⟩

/-- C9: every aggregated record's unified `price` equals the adapter's
`markPrice` when that is nonzero and `lastPrice` otherwise (the JavaScript
`||` fallback); in particular a record with `markPrice = 0` and positive
`lastPrice` reports `lastPrice`. -/
theorem C9_price_fallback (bin byb : List PerpSnapshot)
    (md : String → Option MarketData) (r : PerpData)
    (h : r ∈ perpsGET bin byb md) :
    ∃ item, (item ∈ bin ∨ item ∈ byb) ∧ r.symbol = item.symbol ∧
      r.price = (if item.markPrice = 0 then item.lastPrice else item.markPrice) := by
  obtain ⟨ex, item, hmem, hr⟩ := mem_perpsGET bin byb md r h
  obtain ⟨hsym, hprice, _, _, _⟩ := fill_toPerpData_fields md ex item
  refine ⟨item, ?_, by rw [hr]; exact hsym, by rw [hr, hprice]; rfl⟩
  rcases hmem with ⟨_, h'⟩ | ⟨_, h'⟩
  · exact Or.inl h'
  · exact Or.inr h'

def bybItemW9 : PerpSnapshot :=
  { symbol := "XYZUSDT", markPrice := 0, lastPrice := 5, openInterest := 10,
    openInterestValue := 0, insuranceFund := 0, volume24h := 0,
    fundingRate := 0, nextFundingTime := 0, fundingIntervalHours := 8 }

def perpW9 : PerpData := fillMarketData (fun _ => none) (toPerpData "Bybit" bybItemW9)

theorem C9_price_fallback_witness :
    ((perpsGET [] [bybItemW9] (fun _ => none)).map (·.price) = [5]) ∧
    ∃ item, (item ∈ ([] : List PerpSnapshot) ∨ item ∈ [bybItemW9]) ∧
      perpW9.symbol = item.symbol ∧
      perpW9.price = (if item.markPrice = 0 then item.lastPrice else item.markPrice) :=
  ⟨by decide,
   C9_price_fallback [] [bybItemW9] (fun _ => none) perpW9
     (List.mem_singleton_self perpW9)⟩

theorem mem_getBinancePerps (benv : BinanceEnv) (r : PerpSnapshot)
    (h : r ∈ getBinancePerps benv) :
    ∃ p ∈ getBinanceSymbols benv,
      binanceRecordFor benv
        (getBinanceFundingIntervals benv ((getBinanceSymbols benv).map (·.1)))
        p = some r := by
  unfold getBinancePerps at h
  exact List.mem_filterMap.1 h

theorem mem_getBinancePerps_of (benv : BinanceEnv) (p : String × ℚ)
    (r : PerpSnapshot) (hp : p ∈ getBinanceSymbols benv)
    (hr : binanceRecordFor benv
      (getBinanceFundingIntervals benv ((getBinanceSymbols benv).map (·.1)))
      p = some r) : r ∈ getBinancePerps benv := by
  unfold getBinancePerps
  exact List.mem_filterMap.2 ⟨p, hp, hr⟩

theorem binanceRecordFor_eq_some (benv : BinanceEnv)
    (ci : List (String × ℚ)) (p : String × ℚ) (r : PerpSnapshot)
    (h : binanceRecordFor benv ci p = some r) :
    ¬((benv.premiumIndex p.1).isNone ∧ (benv.ticker24h p.1).isNone) ∧
    r.symbol = p.1 ∧
    r.fundingIntervalHours = (aget ci p.1).getD p.2 ∧
    r.openInterest = ((getBinanceOpenInterest benv p.1).map (·.1)).getD 0 ∧
    r.openInterestValue = ((getBinanceOpenInterest benv p.1).map (·.2)).getD 0 := by
  unfold binanceRecordFor at h
  dsimp only [] at h
  split at h
  · exact absurd h (by simp)
  · next hcond =>
    have hr := Option.some.inj h
    subst hr
    refine ⟨?_, rfl, rfl, rfl, rfl⟩
    intro ⟨h1, h2⟩
    exact hcond (by simp [h1, h2])

theorem one_le_binanceInferredInterval (benv : BinanceEnv) (s : String) :
    1 ≤ binanceInferredInterval benv s := by
  unfold binanceInferredInterval
  rcases hh : benv.fundingHistory s with _ | l
  · norm_num
  · rcases l with _ | ⟨t0, l⟩
    · norm_num
    · rcases l with _ | ⟨t1, rest⟩
      · norm_num
      · exact le_max_left 1 _

theorem mem_getBybitPerps (yenv : BybitEnv) (r : PerpSnapshot)
    (h : r ∈ getBybitPerps yenv) :
    ∃ p ∈ bybitSymbolsData yenv,
      bybitRecordFor yenv
        (buildBybitInsuranceFundMap ((yenv.insurancePools).getD [])
          ((bybitSymbolsData yenv).map (·.1))) p = some r := by
  unfold getBybitPerps at h
  by_cases he : (bybitSymbolsData yenv).isEmpty
  · rw [if_pos he] at h
    exact absurd h (by simp)
  · rw [if_neg he] at h
    exact List.mem_filterMap.1 h

theorem mem_getBybitPerps_of (yenv : BybitEnv) (p : String × Int)
    (r : PerpSnapshot) (hp : p ∈ bybitSymbolsData yenv)
    (hr : bybitRecordFor yenv
      (buildBybitInsuranceFundMap ((yenv.insurancePools).getD [])
        ((bybitSymbolsData yenv).map (·.1))) p = some r) :
    r ∈ getBybitPerps yenv := by
  unfold getBybitPerps
  rw [if_neg (by simp [List.isEmpty_iff]; exact List.ne_nil_of_mem hp)]
  exact List.mem_filterMap.2 ⟨p, hp, hr⟩

theorem bybitRecordFor_eq_some (yenv : BybitEnv) (ifm : List (String × ℚ))
    (p : String × Int) (r : PerpSnapshot)
    (h : bybitRecordFor yenv ifm p = some r) :
    ∃ ticker, yenv.tickers p.1 = some ticker ∧
      ∃ oiv, bybitOpenInterest yenv p.1 = some oiv ∧
      (0 < ticker.markPrice ∨ 0 < ticker.lastPrice) ∧
      r.symbol = p.1 ∧ r.fundingIntervalHours = (p.2 : ℚ) / 60 ∧
      r.openInterest = oiv.1 ∧ r.openInterestValue = oiv.2 ∧
      r.markPrice = ticker.markPrice ∧ r.lastPrice = ticker.lastPrice := by
  unfold bybitRecordFor at h
  rcases htk : yenv.tickers p.1 with _ | ticker
  · simp [htk] at h
  · simp only [htk] at h
    rcases hoi : bybitOpenInterest yenv p.1 with _ | oiv
    · simp [hoi] at h
    · simp only [hoi] at h
      split at h
      · next hpos =>
        have hr := Option.some.inj h
        subst hr
        exact ⟨ticker, rfl, oiv, rfl, hpos, rfl, rfl, rfl, rfl, rfl, rfl⟩
      · exact absurd h (by simp)

/-- The specification-side description of the pooled insurance-fund
distribution (for the refinement comparison): the maximum of the full
balances of the pools containing the symbol, over the pools with positive
balance and a non-empty symbol string; `0` when none. -/
def specPooledInsurance (pools : List BybitPool) (sym : String) : ℚ :=
  pools.foldl (fun acc pool =>
    if 0 < pool.balance ∧ pool.symbols ≠ "" ∧
        sym ∈ (splitOnChar ',' pool.symbols).map strTrim then
      max acc pool.balance
    else acc) 0

theorem aget_insurance_inner (symbols : List String) (balance : ℚ) (k : String)
    (hk : k ∈ symbols) :
    ∀ (syms : List String) (m : List (String × ℚ)),
      (aget (syms.foldl (fun m sym =>
        if sym ∈ symbols then aset m sym (max ((aget m sym).getD 0) balance)
        else m) m) k).getD 0 =
      if k ∈ syms then max ((aget m k).getD 0) balance
      else (aget m k).getD 0 := by
  intro syms
  induction syms with
  | nil => intro m; simp
  | cons s rest ih =>
    intro m
    simp only [List.foldl_cons]
    rw [ih]
    by_cases hks : k = s
    · subst hks
      rw [if_pos hk, if_pos (List.mem_cons_self k rest)]
      by_cases hkr : k ∈ rest
      · rw [if_pos hkr]
        simp [aget_aset, max_assoc, max_self]
      · rw [if_neg hkr]
        simp [aget_aset]
    · have hget : aget (if s ∈ symbols then
          aset m s (max ((aget m s).getD 0) balance) else m) k = aget m k := by
        by_cases hs : s ∈ symbols
        · rw [if_pos hs, aget_aset, if_neg (fun h => hks h.symm)]
        · rw [if_neg hs]
      rw [hget]
      by_cases hkr : k ∈ rest
      · rw [if_pos hkr, if_pos (List.mem_cons_of_mem s hkr)]
      · rw [if_neg hkr, if_neg (by
          intro hmem
          rcases List.mem_cons.1 hmem with h | h
          · exact hks h
          · exact hkr h)]

theorem aget_insurance_outer (symbols : List String) (k : String)
    (hk : k ∈ symbols) :
    ∀ (pools : List BybitPool) (m : List (String × ℚ)),
      (aget (pools.foldl (fun m pool =>
        if 0 < pool.balance ∧ pool.symbols ≠ "" then
          ((splitOnChar ',' pool.symbols).map strTrim).foldl (fun m sym =>
            if sym ∈ symbols then
              aset m sym (max ((aget m sym).getD 0) pool.balance)
            else m) m
        else m) m) k).getD 0 =
      pools.foldl (fun acc pool =>
        if 0 < pool.balance ∧ pool.symbols ≠ "" ∧
            k ∈ (splitOnChar ',' pool.symbols).map strTrim then
          max acc pool.balance
        else acc) ((aget m k).getD 0) := by
  intro pools
  induction pools with
  | nil => intro m; simp
  | cons pool rest ih =>
    intro m
    simp only [List.foldl_cons]
    rw [ih]
    by_cases hc : 0 < pool.balance ∧ pool.symbols ≠ ""
    · rw [if_pos hc]
      rw [aget_insurance_inner symbols pool.balance k hk]
      by_cases hmem : k ∈ (splitOnChar ',' pool.symbols).map strTrim
      · rw [if_pos hmem, if_pos ⟨hc.1, hc.2, hmem⟩]
      · rw [if_neg hmem, if_neg (fun h => hmem h.2.2)]
    · rw [if_neg hc, if_neg (fun h => hc ⟨h.1, h.2.1⟩)]

/-- C2: every symbol of the active list that belongs to pooled Bybit
insurance funds is assigned the **full** pool balance — the maximum of the
(undivided) balances of the pools containing it, never a per-symbol
share. -/
theorem C2_pooled_insurance_full_balance (pools : List BybitPool)
    (symbols : List String) (sym : String) (hsym : sym ∈ symbols) :
    (aget (buildBybitInsuranceFundMap pools symbols) sym).getD 0 =
      specPooledInsurance pools sym := by
  unfold buildBybitInsuranceFundMap specPooledInsurance
  have h := aget_insurance_outer symbols sym hsym pools []
  rw [aget_nil] at h
  exact h

theorem C2_pooled_insurance_full_balance_witness :
    (aget (buildBybitInsuranceFundMap
      [{ symbols := "A,B,C", balance := 1000000 }] ["A", "B", "C"]) "A").getD 0
        = 1000000 ∧
    (aget (buildBybitInsuranceFundMap
      [{ symbols := "A,B,C", balance := 1000000 }] ["A", "B", "C"]) "B").getD 0
        = 1000000 ∧
    (aget (buildBybitInsuranceFundMap
      [{ symbols := "A,B,C", balance := 1000000 }] ["A", "B", "C"]) "C").getD 0
        = 1000000 :=
  ⟨(C2_pooled_insurance_full_balance _ _ "A" (by decide)).trans (by decide),
   (C2_pooled_insurance_full_balance _ _ "B" (by decide)).trans (by decide),
   (C2_pooled_insurance_full_balance _ _ "C" (by decide)).trans (by decide)⟩

/-- C7: the Binance funding-interval inference takes the two most recent
funding timestamps, rounds their absolute delta to the nearest whole hour
and floors the result at 1; in particular two timestamps 14,400,000 ms apart
yield exactly 4 hours, both in the per-symbol inference and in the map built
by `getBinanceFundingIntervals`. -/
theorem C7_funding_interval_inference (benv : BinanceEnv) (symbols : List String)
    (s : String) (t0 t1 : Int) (rest : List Int) (hs : s ∈ symbols)
    (hh : benv.fundingHistory s = some (t0 :: t1 :: rest))
    (hd : |t0 - t1| = 14400000) :
    binanceInferredInterval benv s = 4 ∧
    aget (getBinanceFundingIntervals benv symbols) s = some 4 := by
  have h1 : binanceInferredInterval benv s = 4 := by
    simp only [binanceInferredInterval, hh, hd]
    have hq : ((14400000 : ℤ) : ℚ) / (1000 * 60 * 60) = 4 := by norm_num
    rw [hq]
    have hr : jsRoundQ 4 = 4 := by
      unfold jsRoundQ
      norm_num
    rw [hr]
    exact max_eq_right (by norm_num)
  refine ⟨h1, ?_⟩
  unfold getBinanceFundingIntervals
  rw [aget_foldl_set, if_pos hs, h1]

def benvC7 : BinanceEnv :=
  { exchangeInfoSymbols := [],
    premiumIndex := fun _ => none,
    ticker24h := fun _ => none,
    fundingHistory := fun s =>
      if s = "AAAUSDT" then some [28800000, 14400000] else none,
    openInterest := fun _ => none,
    insuranceBalance := fun _ => none }

theorem C7_funding_interval_inference_witness :
    binanceInferredInterval benvC7 "AAAUSDT" = 4 ∧
    aget (getBinanceFundingIntervals benvC7 ["AAAUSDT"]) "AAAUSDT" = some 4 :=
  C7_funding_interval_inference benvC7 ["AAAUSDT"] "AAAUSDT" 28800000 14400000 []
    (by decide) rfl (by decide)

/-- C3 (amended): every Binance record's `fundingIntervalHours` equals the
inferred interval for its symbol, which is always ≥ 1 (8 when it cannot be
inferred); Bybit records carry the upstream `fundingInterval` minutes
divided by 60 (480 when the field is absent), so they are ≥ 1 exactly when
every advertised interval is at least 60 minutes — nothing in the code
floors the Bybit value at 1. -/
theorem C3_amended_funding_interval_bounds :
    (∀ (benv : BinanceEnv) (r : PerpSnapshot), r ∈ getBinancePerps benv →
      r.fundingIntervalHours = binanceInferredInterval benv r.symbol ∧
      1 ≤ r.fundingIntervalHours) ∧
    (∀ (yenv : BybitEnv),
      (∀ i ∈ yenv.instruments, ∀ n : Int, i.fundingInterval = some n → 60 ≤ n) →
      ∀ r ∈ getBybitPerps yenv, 1 ≤ r.fundingIntervalHours) := by
  constructor
  · intro benv r h
    obtain ⟨p, hp, hfp⟩ := mem_getBinancePerps benv r h
    obtain ⟨_, hsym, hint, _, _⟩ := binanceRecordFor_eq_some benv _ p r hfp
    have hpmem : p.1 ∈ (getBinanceSymbols benv).map (·.1) :=
      List.mem_map_of_mem (·.1) hp
    have hag : aget (getBinanceFundingIntervals benv
        ((getBinanceSymbols benv).map (·.1))) p.1 =
        some (binanceInferredInterval benv p.1) := by
      unfold getBinanceFundingIntervals
      rw [aget_foldl_set, if_pos hpmem]
    constructor
    · rw [hint, hag, hsym]
      rfl
    · rw [hint, hag]
      simp only [Option.getD_some]
      exact one_le_binanceInferredInterval benv p.1
  · intro yenv h60 r hr
    obtain ⟨p, hp, hfp⟩ := mem_getBybitPerps yenv r hr
    obtain ⟨ticker, htk, oiv, hoi, hpos, hsym, hint, _⟩ :=
      bybitRecordFor_eq_some yenv _ p r hfp
    rw [hint]
    unfold bybitSymbolsData at hp
    rcases List.mem_map.1 hp with ⟨i, hi, hpi⟩
    have hi' : i ∈ yenv.instruments := List.mem_of_mem_filter hi
    have hp2 : p.2 = (i.fundingInterval).getD 480 := by rw [← hpi]
    rw [hp2]
    rcases hfi : i.fundingInterval with _ | n
    · simp only [Option.getD_none]
      norm_num
    · have h60' := h60 i hi' n hfi
      simp only [Option.getD_some]
      rw [le_div_iff₀ (by norm_num : (0:ℚ) < 60)]
      have : ((60 : Int) : ℚ) ≤ (n : ℚ) := by exact_mod_cast h60'
      calc (1:ℚ) * 60 = ((60 : Int) : ℚ) := by norm_num
        _ ≤ (n : ℚ) := this

/-- Bybit environment advertising a 30-minute funding interval. -/
def yenvC3 : BybitEnv :=
  { instruments := [{ symbol := "AAAUSDT", status := "Trading",
                      fundingInterval := some 30 }],
    tickers := fun s => if s = "AAAUSDT" then
        some { markPrice := 100, lastPrice := 100, turnover24h := 0,
               fundingRate := 0, nextFundingTime := 0 }
      else none,
    openInterest := fun s => if s = "AAAUSDT" then some 5 else none,
    insurancePools := some [] }

/-- C3 counterexample: a Bybit instrument whose upstream `fundingInterval`
is 30 minutes is emitted with `fundingIntervalHours = 30/60 = 1/2 < 1`,
refuting the claim that every adapter record has `fundingIntervalHours ≥ 1`. -/
theorem C3_counterexample :
    (getBybitPerps yenvC3).map (·.fundingIntervalHours) = [((30 : Int) : ℚ) / 60] ∧
    ((30 : Int) : ℚ) / 60 < 1 := by
  constructor
  · rfl
  · norm_num

/-- C3 witness: a Binance symbol with an inferrable 4-hour interval and a
Bybit universe whose advertised intervals are all ≥ 60 minutes. -/
def benvC3W : BinanceEnv :=
  { exchangeInfoSymbols :=
      [{ symbol := "AAAUSDT", contractType := "PERPETUAL", status := "TRADING",
         fundingIntervalHours := none }],
    premiumIndex := fun s => if s = "AAAUSDT" then
        some { markPrice := 10, lastFundingRate := 0, nextFundingTime := 0 }
      else none,
    ticker24h := fun _ => none,
    fundingHistory := fun _ => none,
    openInterest := fun _ => none,
    insuranceBalance := fun _ => none }

def yenvC3W : BybitEnv :=
  { instruments := [{ symbol := "AAAUSDT", status := "Trading",
                      fundingInterval := some 240 }],
    tickers := fun s => if s = "AAAUSDT" then
        some { markPrice := 100, lastPrice := 100, turnover24h := 0,
               fundingRate := 0, nextFundingTime := 0 }
      else none,
    openInterest := fun s => if s = "AAAUSDT" then some 5 else none,
    insurancePools := some [] }

def binRecC3W : PerpSnapshot :=
  { symbol := "AAAUSDT", markPrice := 10, lastPrice := 10, openInterest := 0,
    openInterestValue := 0, insuranceFund := 0, volume24h := 0,
    fundingRate := 0, nextFundingTime := 0, fundingIntervalHours := 8,
    hasFundingData := some true, hasOpenInterestData := some false }

def bybRecC3W : PerpSnapshot :=
  { symbol := "AAAUSDT", markPrice := 100, lastPrice := 100,
    openInterest := 5,
    openInterestValue := 5 * (((yenvC3W.tickers "AAAUSDT").map (·.markPrice)).getD 0),
    insuranceFund := 0, volume24h := 0, fundingRate := 0, nextFundingTime := 0,
    fundingIntervalHours := ((240 : Int) : ℚ) / 60 }

theorem C3_amended_funding_interval_bounds_witness :
    (1 ≤ binRecC3W.fundingIntervalHours) ∧
    (1 ≤ bybRecC3W.fundingIntervalHours) :=
  ⟨(C3_amended_funding_interval_bounds.1 benvC3W binRecC3W (by decide)).2,
   C3_amended_funding_interval_bounds.2 yenvC3W (by decide) bybRecC3W
     (List.mem_singleton_self bybRecC3W)⟩

/-- C4 (amended): per-symbol sub-call failures affect only that symbol's
record, but the two adapters degrade differently. (a) A Binance symbol whose
open-interest request failed is still emitted — with `openInterest` and
`openInterestValue` both 0 — provided premium-index or ticker data is
present (a symbol is excluded only when both are absent). (b) The Bybit
adapter instead **excludes** a symbol whose open-interest request failed,
even when positive price data is present. (c) A Bybit symbol with ticker
data, an open-interest entry and a positive mark or last price is
emitted. -/
theorem C4_amended_oi_failure_degradation :
    (∀ (benv : BinanceEnv) (p : String × ℚ), p ∈ getBinanceSymbols benv →
      benv.openInterest p.1 = none →
      ((benv.premiumIndex p.1).isSome ∨ (benv.ticker24h p.1).isSome) →
      ∃ r ∈ getBinancePerps benv, r.symbol = p.1 ∧
        r.openInterest = 0 ∧ r.openInterestValue = 0) ∧
    (∀ (yenv : BybitEnv) (s : String), yenv.openInterest s = none →
      (getBybitPerps yenv).all (fun r => r.symbol != s) = true) ∧
    (∀ (yenv : BybitEnv) (p : String × Int) (tk : BybitTicker) (c : ℚ),
      p ∈ bybitSymbolsData yenv → yenv.tickers p.1 = some tk →
      yenv.openInterest p.1 = some c →
      (0 < tk.markPrice ∨ 0 < tk.lastPrice) →
      ∃ r ∈ getBybitPerps yenv, r.symbol = p.1) := by
  refine ⟨?_, ?_, ?_⟩
  · intro benv p hp hoi hprice
    have hcond : ¬ ((benv.premiumIndex p.1).isNone &&
        (benv.ticker24h p.1).isNone) = true := by
      intro hc
      rw [Bool.and_eq_true] at hc
      simp only [Option.isNone_iff_eq_none] at hc
      rcases hprice with h | h <;> rw [Option.isSome_iff_ne_none] at h
      · exact h hc.1
      · exact h hc.2
    rcases hrec : binanceRecordFor benv
        (getBinanceFundingIntervals benv ((getBinanceSymbols benv).map (·.1)))
        p with _ | r
    · unfold binanceRecordFor at hrec
      dsimp only [] at hrec
      rw [if_neg hcond] at hrec
      exact absurd hrec (by simp)
    · obtain ⟨_, hsym, _, hoi1, hoi2⟩ := binanceRecordFor_eq_some benv _ p r hrec
      refine ⟨r, mem_getBinancePerps_of benv p r hp hrec, hsym, ?_, ?_⟩
      · rw [hoi1]
        simp [getBinanceOpenInterest, hoi]
      · rw [hoi2]
        simp [getBinanceOpenInterest, hoi]
  · intro yenv s hoi
    rw [List.all_eq_true]
    intro r hr
    obtain ⟨p, hp, hfp⟩ := mem_getBybitPerps yenv r hr
    obtain ⟨tk, htk, oiv, hoiv, _, hsym, _⟩ := bybitRecordFor_eq_some yenv _ p r hfp
    rw [bne_iff_ne]
    intro hss
    rw [hsym] at hss
    subst hss
    unfold bybitOpenInterest at hoiv
    rw [hoi] at hoiv
    exact absurd hoiv (by simp)
  · intro yenv p tk c hp htk hoi hpos
    rcases hrec : bybitRecordFor yenv
        (buildBybitInsuranceFundMap ((yenv.insurancePools).getD [])
          ((bybitSymbolsData yenv).map (·.1))) p with _ | r
    · unfold bybitRecordFor at hrec
      simp only [htk] at hrec
      have hoi' : bybitOpenInterest yenv p.1 =
          some (c, c * (((yenv.tickers p.1).map (·.markPrice)).getD 0)) := by
        unfold bybitOpenInterest
        rw [hoi]
        rfl
      simp only [hoi'] at hrec
      rw [if_pos hpos] at hrec
      exact absurd hrec (by simp)
    · obtain ⟨tk', htk', oiv, hoiv, _, hsym, _⟩ :=
        bybitRecordFor_eq_some yenv _ p r hrec
      exact ⟨r, mem_getBybitPerps_of yenv p r hp hrec, hsym⟩

/-- Bybit environment where the open-interest request fails for `AAAUSDT`
(positive price data present) and succeeds for `BBBUSDT`. -/
def yenvC4 : BybitEnv :=
  { instruments := [{ symbol := "AAAUSDT", status := "Trading",
                      fundingInterval := some 480 },
                    { symbol := "BBBUSDT", status := "Trading",
                      fundingInterval := some 480 }],
    tickers := fun s =>
      if s = "AAAUSDT" then
        some { markPrice := 100, lastPrice := 100, turnover24h := 0,
               fundingRate := 0, nextFundingTime := 0 }
      else if s = "BBBUSDT" then
        some { markPrice := 200, lastPrice := 200, turnover24h := 0,
               fundingRate := 0, nextFundingTime := 0 }
      else none,
    openInterest := fun s => if s = "BBBUSDT" then some 5 else none,
    insurancePools := some [] }

/-- C4 counterexample: the Bybit symbol `AAAUSDT`, whose open-interest
request failed while its mark price is a positive 100, is **excluded** from
the adapter output instead of being emitted with zero open interest —
refuting the claim that both adapters emit such symbols. -/
theorem C4_counterexample :
    yenvC4.openInterest "AAAUSDT" = none ∧
    (yenvC4.tickers "AAAUSDT").map (·.markPrice) = some 100 ∧
    ((0:ℚ) < 100) ∧
    ("AAAUSDT", (480 : Int)) ∈ bybitSymbolsData yenvC4 ∧
    (getBybitPerps yenvC4).map (·.symbol) = ["BBBUSDT"] := by
  refine ⟨rfl, rfl, by norm_num, by decide, rfl⟩

/-- Binance environment where every open-interest request fails but
`CCCUSDT` has premium-index data. -/
def benvC4 : BinanceEnv :=
  { exchangeInfoSymbols :=
      [{ symbol := "CCCUSDT", contractType := "PERPETUAL", status := "TRADING",
         fundingIntervalHours := none }],
    premiumIndex := fun s => if s = "CCCUSDT" then
        some { markPrice := 100, lastFundingRate := 0, nextFundingTime := 0 }
      else none,
    ticker24h := fun _ => none,
    fundingHistory := fun _ => none,
    openInterest := fun _ => none,
    insuranceBalance := fun _ => none }

theorem C4_amended_oi_failure_degradation_witness :
    (∃ r ∈ getBinancePerps benvC4, r.symbol = "CCCUSDT" ∧
      r.openInterest = 0 ∧ r.openInterestValue = 0) ∧
    ((getBybitPerps yenvC4).all (fun r => r.symbol != "AAAUSDT") = true) ∧
    (∃ r ∈ getBybitPerps yenvC4, r.symbol = "BBBUSDT") :=
  ⟨C4_amended_oi_failure_degradation.1 benvC4 ("CCCUSDT", 8) (by decide) rfl
     (Or.inl rfl),
   C4_amended_oi_failure_degradation.2.1 yenvC4 "AAAUSDT" rfl,
   C4_amended_oi_failure_degradation.2.2 yenvC4 ("BBBUSDT", 480)
     { markPrice := 200, lastPrice := 200, turnover24h := 0,
       fundingRate := 0, nextFundingTime := 0 } 5
     (by decide) rfl rfl (Or.inl (by norm_num))⟩

/-! ## `GET` funding-history route -/

structure BinanceFundingRow where
  fundingTime : Int
  fundingRate : ℚ
deriving DecidableEq

structure BybitFundingRow where
  fundingRateTimestamp : Int
  fundingRate : ℚ
deriving DecidableEq

structure FundingPoint where
  time : Int
  rate : ℚ
deriving DecidableEq

/-- The Binance branch of the funding-history route: map the response rows
in their native order (Binance already returns them oldest first, so no
reordering is applied). -/
def fundingHistoryBinance (rows : List BinanceFundingRow) : List FundingPoint :=
  rows.map (fun item => { time := item.fundingTime, rate := item.fundingRate })

/-- The Bybit branch of the funding-history route: Bybit returns rows in
reverse chronological order, so the branch maps and then `reverse`s; a bad
`retCode` leaves the history empty. -/
def fundingHistoryBybit (retCode : Int) (rows : List BybitFundingRow) :
    List FundingPoint :=
  if retCode = 0 then
    (rows.map (fun item =>
      { time := item.fundingRateTimestamp, rate := item.fundingRate })).reverse
  else []

/-- C8: the funding-history route returns the `{time, rate}` sequence
ordered oldest-to-newest for both venues, normalizing each venue's native
chronological ordering (Binance native = ascending, preserved; Bybit
native = descending, reversed). -/
theorem C8_history_oldest_to_newest (brows : List BinanceFundingRow)
    (retCode : Int) (yrows : List BybitFundingRow)
    (hb : List.Sorted (· ≤ ·) (brows.map (·.fundingTime)))
    (hy : List.Sorted (fun a b => b ≤ a) (yrows.map (·.fundingRateTimestamp))) :
    List.Sorted (· ≤ ·) ((fundingHistoryBinance brows).map (·.time)) ∧
    List.Sorted (· ≤ ·) ((fundingHistoryBybit retCode yrows).map (·.time)) := by
  constructor
  · have heq : (fundingHistoryBinance brows).map (·.time) =
        brows.map (·.fundingTime) := by
      unfold fundingHistoryBinance
      rw [List.map_map]
      rfl
    rw [heq]
    exact hb
  · unfold fundingHistoryBybit
    split
    · rw [List.map_reverse, List.map_map]
      exact List.pairwise_reverse.2 hy
    · simp

theorem C8_history_oldest_to_newest_witness :
    List.Sorted (· ≤ ·) ((fundingHistoryBinance
      [{ fundingTime := 1, fundingRate := 0 },
       { fundingTime := 2, fundingRate := 0 }]).map (·.time)) ∧
    List.Sorted (· ≤ ·) ((fundingHistoryBybit 0
      [{ fundingRateTimestamp := 5, fundingRate := 0 },
       { fundingRateTimestamp := 3, fundingRate := 0 }]).map (·.time)) :=
  C8_history_oldest_to_newest
    [{ fundingTime := 1, fundingRate := 0 }, { fundingTime := 2, fundingRate := 0 }]
    0
    [{ fundingRateTimestamp := 5, fundingRate := 0 },
     { fundingRateTimestamp := 3, fundingRate := 0 }]
    (by decide) (by decide)

/-! ## `GET /api/market-data` route -/

structure MarketDataResponse where
  status : Nat
  success : Bool
  error : Option String
  data : List (String × MarketData)
deriving DecidableEq

/-- `symbolsParam.split(',').map(s => s.trim()).filter(Boolean)`. -/
def cleanedSymbols (symbolsParam : String) : List String :=
  ((splitOnChar ',' symbolsParam).map strTrim).filter (fun s => s != "")

/-- `GET /api/market-data`: `if (!symbolsParam)` — the parameter absent
**or bound to the empty string** (both falsy) — yields 400; otherwise the
value is split on commas, trimmed and cleaned of empty entries; an empty
cleaned list yields 200 with empty data, else the batched market-data
lookup runs. -/
def marketDataGET (env : CGEnv) (now : Nat) (st : MDState)
    (symbolsParam : Option String) : MarketDataResponse :=
  match symbolsParam with
  | none =>
    { status := 400, success := false, error := some "missing symbols", data := [] }
  | some sp =>
    if sp = "" then
      { status := 400, success := false, error := some "missing symbols", data := [] }
    else
      let symbols := cleanedSymbols sp
      if symbols = [] then
        { status := 200, success := true, error := none, data := [] }
      else
        { status := 200, success := true, error := none,
          data := (getBatchMarketDataForSymbols env now st symbols).1 }

/-- C10 counterexample: with the `symbols` parameter **present** but bound
to the empty string — a value that cleans to no symbols — the endpoint
takes the 400 path, refuting both halves of the claim (present-but-empty
should give 200, and 400 should occur only when the parameter is absent). -/
theorem C10_counterexample :
    (marketDataGET cgEnvW 0 initMDState (some "")).status = 400 ∧
    ((some "" : Option String) ≠ none) ∧
    cleanedSymbols "" = [] := by
  refine ⟨rfl, by simp, by decide⟩

/-- C10 (amended): the 400 path is taken exactly when the `symbols`
parameter is absent or its raw value is the empty string (both falsy in
JavaScript); when the parameter is present with a non-empty raw value that
cleans to no symbols, the endpoint returns HTTP 200 with
`{ success: true, data: {} }`. -/
theorem C10_amended_market_data_param_handling (env : CGEnv) (now : Nat)
    (st : MDState) :
    (∀ p : Option String, (marketDataGET env now st p).status = 400 ↔
      (p = none ∨ p = some "")) ∧
    (∀ sp : String, sp ≠ "" → cleanedSymbols sp = [] →
      marketDataGET env now st (some sp) =
        { status := 200, success := true, error := none, data := [] }) := by
  constructor
  · intro p
    match p with
    | none => simp [marketDataGET]
    | some sp =>
      by_cases hsp : sp = ""
      · subst hsp
        simp [marketDataGET]
      · simp only [marketDataGET, if_neg hsp]
        split <;> simp [hsp]
  · intro sp hsp hcl
    simp [marketDataGET, hsp, hcl]

theorem C10_amended_market_data_param_handling_witness :
    ((marketDataGET cgEnvW 0 initMDState (some " , ")).status = 400 ↔
      ((some " , " : Option String) = none ∨ (some " , ") = some "")) ∧
    (marketDataGET cgEnvW 0 initMDState (some " , ") =
      { status := 200, success := true, error := none, data := [] }) :=
  ⟨(C10_amended_market_data_param_handling cgEnvW 0 initMDState).1 (some " , "),
   (C10_amended_market_data_param_handling cgEnvW 0 initMDState).2 " , "
     (by decide) (by decide)⟩
